import Mathlib

/-!
# Verification of `naterajj/distance` (`main.go`)

A shallow embedding of the pairwise-distance pipeline: the input loader
`csv2records`, the workers `calcDistances`, the batching sink
`collectDistances`, and the coordinator `main` together with the three
channels `srccha`, `rescha` and `done` and the wait group `wg`.

* Floating point is not interpreted.  The type of `float64` values parsed from
  the input is a parameter `φ`, the type of computed distances is a parameter
  `μ`, and the library functions `strconv.ParseFloat`, `haversine.Distance`
  and `strconv.FormatFloat` are parameters.
* The operating system is a parameter as well: whether `os.Create` succeeds
  and whether a given `writer.WriteAll` call succeeds.
* The goroutines are embedded as a step function over an explicit
  configuration; a schedule is a list of thread identifiers, and scheduling a
  thread that is blocked leaves the configuration unchanged.
-/

namespace Main

/-! ## Data model -/

/-- The library type `haversine.Coord`: a latitude and a longitude. -/
structure Coord (φ : Type) where
  Lat : φ
  Lon : φ
deriving DecidableEq

/-- The Go type `Record`: a labelled coordinate. -/
structure Record (φ : Type) where
  Zip : String
  Cor : Coord φ
deriving DecidableEq

/-- The Go type `Distance`: one result travelling on `rescha`. -/
structure Distance (μ : Type) where
  src : String
  dst : String
  miles : μ
deriving DecidableEq

/-- The constant `precision`. -/
def precision : Int := 3

/-- A csv row, as handed to `csv.Writer` or produced by `csv.Reader`. -/
abbrev Row := List String

/-- What lies outside `main.go`: the machine, the libraries and the file system. -/
structure World (φ μ : Type) where
  /-- The value of `runtime.NumCPU()`. -/
  NumCPU : Nat
  /-- The library function `haversine.Distance`, returning miles and kilometres. -/
  haversineDistance : Coord φ → Coord φ → μ × μ
  /-- The library function `strconv.FormatFloat`. -/
  FormatFloat : μ → Char → Int → Int → String
  /-- Whether `os.Create(output)` succeeds. -/
  createOk : Bool
  /-- Whether `writer.WriteAll(buffer)` succeeds, given the batches written so far. -/
  writeOk : List (List Row) → List Row → Bool

/-! ## The sink `collectDistances` -/

/-- The value of `make([][]string, 3)`: a slice of length three holding nil rows. -/
def newBuffer : List Row := List.replicate 3 []

/-- The local state of `collectDistances`, with the batches that `writer.WriteAll`
has received so far, one list element per call. -/
structure SinkState where
  buffer : List Row
  count : Nat
  written : List (List Row)
deriving DecidableEq

/-- The state of `collectDistances` on entering its loop. -/
def SinkState.init : SinkState := { buffer := newBuffer, count := 0, written := [] }

/-- The call `writer.WriteAll(buffer)` followed by the reset of the buffer; `none`
is the `log.Fatal` exit. -/
def flushBuffer {φ μ : Type} (W : World φ μ) (st : SinkState) : Option SinkState :=
  if W.writeOk st.written st.buffer then
    some { buffer := newBuffer, count := 0, written := st.written ++ [st.buffer] }
  else none

/-- One iteration of `for dis := range reschan` in `collectDistances`. -/
def collectIter {φ μ : Type} (W : World φ μ) (st : SinkState) (dis : Distance μ) :
    Option SinkState :=
  let st1 : SinkState :=
    if dis.src != dis.dst then
      { st with
        buffer := st.buffer ++ [[dis.src, dis.dst, W.FormatFloat dis.miles 'f' precision 32]]
        count := st.count + 1 }
    else st
  if st1.count % 2000 == 0 then flushBuffer W st1 else some st1

/-- The code of `collectDistances` after its loop: the last write, when `count > 0`. -/
def collectFinish {φ μ : Type} (W : World φ μ) (st : SinkState) : Option SinkState :=
  if st.count > 0 then
    if W.writeOk st.written st.buffer then
      some { st with written := st.written ++ [st.buffer] }
    else none
  else some st

/-- The loop of `collectDistances` over the results received so far. -/
def collectLoop {φ μ : Type} (W : World φ μ) :
    SinkState → List (Distance μ) → Option SinkState
  | st, [] => some st
  | st, dis :: rest =>
    match collectIter W st dis with
    | some st1 => collectLoop W st1 rest
    | none => none

/-- The function `collectDistances` run on the whole stream of results that
`reschan` delivers before it is closed.  The result is the list of batches given
to `writer.WriteAll`, in call order; `none` is a `log.Fatal` exit. -/
def collectDistances {φ μ : Type} (W : World φ μ) (reschan : List (Distance μ)) :
    Option (List (List Row)) :=
  if W.createOk then
    match collectLoop W SinkState.init reschan with
    | some st =>
      match collectFinish W st with
      | some st1 => some st1.written
      | none => none
    | none => none
  else none

/-- The rows of a sequence of batches that carry a result: the three-field rows. -/
def resultRows (batches : List (List Row)) : List Row :=
  batches.flatten.filter (fun row => row.length == 3)

/-- The row that `collectDistances` formats from a result. -/
def formatRow {φ μ : Type} (W : World φ μ) (dis : Distance μ) : Row :=
  [dis.src, dis.dst, W.FormatFloat dis.miles 'f' precision 32]

/-! ## The loader `csv2records` -/

/-- How a call of `csv2records` ends. -/
inductive Loaded (φ ε : Type) where
  /-- The call returns the table with a nil error. -/
  | table (records : List (Record φ))
  /-- The call reaches `log.Fatal(err)`. -/
  | fatal (err : ε)
  /-- The call stops in a Go run-time panic. -/
  | runtimePanic
deriving DecidableEq

/-- The body of the loop of `csv2records` on the data rows.  An index expression
`record[k]` beyond the length of the row is a run-time panic (`none`). -/
def parseRows {φ : Type} (ParseFloat : String → φ) : List Row → Option (List (Record φ))
  | [] => some []
  | record :: rest =>
    match record[1]?, record[2]?, record[0]? with
    | some f1, some f2, some f0 =>
      match parseRows ParseFloat rest with
      | some result =>
        some ({ Zip := f0, Cor := { Lat := ParseFloat f1, Lon := ParseFloat f2 } } :: result)
      | none => none
    | _, _, _ => none

/-- The function `csv2records`.  `ReadFile` is `ioutil.ReadFile`, `ReadAll` is the
csv reader's `ReadAll` on the bytes read, `ParseFloat` is `strconv.ParseFloat`
with its error dropped. -/
def csv2records {φ ε β : Type} (ReadFile : String → Except ε β)
    (ReadAll : β → Except ε (List Row)) (ParseFloat : String → φ) (path : String) :
    Loaded φ ε :=
  match ReadFile path with
  | .error err => .fatal err
  | .ok inp =>
    match ReadAll inp with
    | .error err => .fatal err
    | .ok records =>
      match records with
      | [] => .runtimePanic
      | _ :: data =>
        match parseRows ParseFloat data with
        | some result => .table result
        | none => .runtimePanic

/-! ## The worker `calcDistances`, the coordinator `main` and the channels -/

/-- A Go channel: the buffered elements in FIFO order, the capacity, and whether
`close` has been called. -/
structure Chan (α : Type) where
  queue : List α
  cap : Nat
  closed : Bool
deriving DecidableEq

/-- Where a goroutine running `calcDistances` stands. -/
inductive WorkerPc (φ : Type) where
  /-- At the head of `for src := range srccha`. -/
  | ranging
  /-- In `for _, dst := range records`, with the destinations still to visit. -/
  | pushing (src : Record φ) (todo : List (Record φ))
  /-- At `done <- true`. -/
  | signalling
  /-- After `done <- true`, before the deferred `wg.Done()`. -/
  | deferred
  /-- Returned. -/
  | returned
deriving DecidableEq

/-- A goroutine running `calcDistances`.  `taken`, `pushed` and `signals` record
what it has received from `srccha`, sent on `rescha` and sent on `done`. -/
structure Worker (φ μ : Type) where
  pc : WorkerPc φ
  taken : List (Record φ)
  pushed : List (Distance μ)
  signals : Nat
deriving DecidableEq

/-- Where the goroutine running `collectDistances` stands. -/
inductive SinkPc where
  /-- Before `os.Create(output)`. -/
  | creating
  /-- In `for dis := range reschan`. -/
  | looping
  /-- Returned. -/
  | returned
deriving DecidableEq

/-- The goroutine running `collectDistances`; `received` records what it has
taken off `rescha`. -/
structure Sink (μ : Type) where
  pc : SinkPc
  st : SinkState
  received : List (Distance μ)
deriving DecidableEq

/-- Where `main` stands, from the loop that starts the workers on. -/
inductive MainPc (φ : Type) where
  /-- In `for i := 0; i < numWorkers; i++`. -/
  | spawn (i : Nat)
  /-- In `for _, src := range records`, with the records still to send; `fill []`
  is the point before `close(srccha)`. -/
  | fill (todo : List (Record φ))
  /-- In `for _ = range done`, with the current value of `numWorkers`. -/
  | await (numWorkers : Int)
  /-- Before `close(done)`. -/
  | closeDone
  /-- Before `close(rescha)`. -/
  | closeRes
  /-- In `wg.Wait()`. -/
  | wait
  /-- Returned: the process has ended. -/
  | exited
deriving DecidableEq

/-- The configuration of the running program. -/
structure Config (φ μ : Type) where
  main : MainPc φ
  workers : List (Worker φ μ)
  sink : Sink μ
  srccha : Chan (Record φ)
  rescha : Chan (Distance μ)
  doneClosed : Bool
  /-- The number of values `main` has received from `done`. -/
  doneReceived : Nat
  wg : Int
  /-- A goroutine has sent on a closed channel. -/
  panicked : Bool
  /-- A goroutine has called `log.Fatal`. -/
  aborted : Bool
deriving DecidableEq

/-- A thread of the program. -/
inductive Tid where
  | main
  | sink
  | worker (i : Nat)
deriving DecidableEq

/-- The value `main` gives `numWorkers`. -/
def numWorkers {φ μ : Type} (W : World φ μ) : Nat := W.NumCPU * 4

/-- The result `calcDistances` sends for a source and a destination. -/
def mkDistance {φ μ : Type} (W : World φ μ) (src dst : Record φ) : Distance μ :=
  { src := src.Zip, dst := dst.Zip, miles := (W.haversineDistance src.Cor dst.Cor).1 }

/-- The configuration once `main` has made the channels and started
`collectDistances`. -/
def Config.init {φ μ : Type} (records : List (Record φ)) : Config φ μ :=
  { main := .spawn 0
    workers := []
    sink := { pc := .creating, st := SinkState.init, received := [] }
    srccha := { queue := [], cap := records.length, closed := false }
    rescha := { queue := [], cap := 100, closed := false }
    doneClosed := false
    doneReceived := 0
    wg := 1
    panicked := false
    aborted := false }

/-- One step of the function `main`. -/
def mainStep {φ μ : Type} (W : World φ μ) (records : List (Record φ)) (c : Config φ μ) :
    Config φ μ :=
  match c.main with
  | .spawn i =>
    if (i : Int) < (numWorkers W : Int) then
      { c with
        main := .spawn (i + 1)
        wg := c.wg + 1
        workers := c.workers ++ [{ pc := .ranging, taken := [], pushed := [], signals := 0 }] }
    else { c with main := .fill records }
  | .fill (src :: rest) =>
    if c.srccha.queue.length < c.srccha.cap then
      { c with main := .fill rest, srccha := { c.srccha with queue := c.srccha.queue ++ [src] } }
    else c
  | .fill [] => { c with main := .await (numWorkers W), srccha := { c.srccha with closed := true } }
  | .await _ => c
  | .closeDone => { c with main := .closeRes, doneClosed := true }
  | .closeRes => { c with main := .wait, rescha := { c.rescha with closed := true } }
  | .wait => if c.wg = 0 then { c with main := .exited } else c
  | .exited => c

/-- One step of the goroutine running `collectDistances`. -/
def collectDistancesStep {φ μ : Type} (W : World φ μ) (c : Config φ μ) : Config φ μ :=
  match c.sink.pc with
  | .creating =>
    if W.createOk then { c with sink := { c.sink with pc := .looping } }
    else { c with aborted := true }
  | .looping =>
    match c.rescha.queue with
    | dis :: rest =>
      match collectIter W c.sink.st dis with
      | some st1 =>
        { c with
          rescha := { c.rescha with queue := rest }
          sink := { pc := .looping, st := st1, received := c.sink.received ++ [dis] } }
      | none => { c with aborted := true }
    | [] =>
      if c.rescha.closed then
        match collectFinish W c.sink.st with
        | some st1 => { c with sink := { c.sink with pc := .returned, st := st1 }, wg := c.wg - 1 }
        | none => { c with aborted := true }
      else c
  | .returned => c

/-- One step of the `i`-th goroutine running `calcDistances`.  The send on the
unbuffered `done` is a joint step with `main`, which receives in its
`for _ = range done` loop. -/
def calcDistancesStep {φ μ : Type} (W : World φ μ) (records : List (Record φ))
    (c : Config φ μ) (i : Nat) : Config φ μ :=
  match c.workers[i]? with
  | none => c
  | some w =>
    match w.pc with
    | .ranging =>
      match c.srccha.queue with
      | src :: rest =>
        { c with
          srccha := { c.srccha with queue := rest }
          workers := c.workers.set i
            { w with pc := .pushing src records, taken := w.taken ++ [src] } }
      | [] =>
        if c.srccha.closed then { c with workers := c.workers.set i { w with pc := .signalling } }
        else c
    | .pushing _ [] => { c with workers := c.workers.set i { w with pc := .ranging } }
    | .pushing src (dst :: rest) =>
      if c.rescha.closed then { c with panicked := true }
      else if c.rescha.queue.length < c.rescha.cap then
        { c with
          rescha := { c.rescha with queue := c.rescha.queue ++ [mkDistance W src dst] }
          workers := c.workers.set i
            { w with pc := .pushing src rest, pushed := w.pushed ++ [mkDistance W src dst] } }
      else c
    | .signalling =>
      if c.doneClosed then { c with panicked := true }
      else
        match c.main with
        | .await n =>
          { c with
            main := if n - 1 = 0 then .closeDone else .await (n - 1)
            doneReceived := c.doneReceived + 1
            workers := c.workers.set i { w with pc := .deferred, signals := w.signals + 1 } }
        | _ => c
    | .deferred => { c with wg := c.wg - 1, workers := c.workers.set i { w with pc := .returned } }
    | .returned => c

/-- One step of the program: the scheduled thread moves if it can.  Nothing moves
once the process has ended, by a panic, by `log.Fatal` or by the return of `main`. -/
def step {φ μ : Type} (W : World φ μ) (records : List (Record φ)) (c : Config φ μ)
    (t : Tid) : Config φ μ :=
  if c.panicked || c.aborted then c
  else
    match c.main with
    | .exited => c
    | _ =>
      match t with
      | .main => mainStep W records c
      | .sink => collectDistancesStep W c
      | .worker i => calcDistancesStep W records c i

/-- The configuration reached from `Config.init` under a schedule. -/
def run {φ μ : Type} (W : World φ μ) (records : List (Record φ)) (sched : List Tid) :
    Config φ μ :=
  sched.foldl (step W records) (Config.init records)

/-- The results of one source point, in table order: what one pass of the inner
loop of `calcDistances` sends. -/
def rowsFor {φ μ : Type} (W : World φ μ) (records : List (Record φ)) (src : Record φ) :
    List (Distance μ) :=
  records.map (mkDistance W src)

/-- The function `calcDistances` run alone to its `done <- true`: what one worker sends
on `rescha` when it receives the points `srccha`, in order. -/
def calcDistances {φ μ : Type} (W : World φ μ) (srccha : List (Record φ))
    (records : List (Record φ)) : List (Distance μ) :=
  srccha.flatMap (rowsFor W records)

/-- Every result the workers compute for a table: one per ordered pair of points. -/
def allPairs {φ μ : Type} (W : World φ μ) (records : List (Record φ)) : List (Distance μ) :=
  calcDistances W records records

/-- The result rows the sink holds or has written: those of the batches written and
of the buffer. -/
def SinkState.rows (st : SinkState) : List Row := resultRows (st.written ++ [st.buffer])

/-- The position of `main` in its straight-line code, as a number. -/
def MainPc.phase {φ : Type} : MainPc φ → Nat
  | .spawn _ => 0
  | .fill _ => 1
  | .await _ => 2
  | .closeDone => 3
  | .closeRes => 4
  | .wait => 5
  | .exited => 6

/-- The worker has completed its send on `done`. -/
def Worker.past {φ μ : Type} (w : Worker φ μ) : Bool :=
  match w.pc with
  | .deferred => true
  | .returned => true
  | _ => false

/-- The worker has left its `for src := range srccha` loop. -/
def Worker.left {φ μ : Type} (w : Worker φ μ) : Bool :=
  match w.pc with
  | .signalling => true
  | .deferred => true
  | .returned => true
  | _ => false

/-- The worker has not returned yet. -/
def Worker.live {φ μ : Type} (w : Worker φ μ) : Bool :=
  match w.pc with
  | .returned => false
  | _ => true

/-- The results the worker has still to send for the source point it holds. -/
def Worker.pending {φ μ : Type} (W : World φ μ) (w : Worker φ μ) : List (Distance μ) :=
  match w.pc with
  | .pushing src todo => todo.map (mkDistance W src)
  | _ => []

/-- The records `main` has still to send on `srccha`. -/
def MainPc.unsent {φ : Type} (records : List (Record φ)) : MainPc φ → List (Record φ)
  | .spawn _ => records
  | .fill todo => todo
  | _ => []

/-- The number of workers `main` has started. -/
def MainPc.started {φ μ : Type} (W : World φ μ) : MainPc φ → Nat
  | .spawn i => i
  | _ => numWorkers W

/-- The output of the pipeline under a schedule: the batches `collectDistances` has
given to `writer.WriteAll` when `main` has returned; `none` when the schedule does
not bring `main` to its return. -/
def pipeline {φ μ : Type} (W : World φ μ) (records : List (Record φ)) (sched : List Tid) :
    Option (List (List Row)) :=
  match (run W records sched).main with
  | .exited => some (run W records sched).sink.st.written
  | _ => none

/-- The labels of a table, in table order. -/
def labels {φ : Type} (records : List (Record φ)) : List String :=
  records.map (fun r => r.Zip)

/-- The sum over the labels `l` of a table of `c_l * c_l`, where `c_l` is the number
of points that carry `l`: the number of ordered pairs of points with equal labels. -/
def sameLabelPairs {φ : Type} (records : List (Record φ)) : Nat :=
  Finset.sum (labels records).toFinset
    (fun l => (labels records).count l * (labels records).count l)

/-- The number of rows in a sequence of batches, nil rows included. -/
def totalRows (batches : List (List Row)) : Nat :=
  (batches.map List.length).sum

/-- A parsed input table with a header and one data row, both without the longitude
column. -/
def twoColumnTable : List Row := [["zip", "lat"], ["10001", "40.7"]]

/-! ## Concrete inputs -/

/-- A small world for concrete runs: one CPU, coordinates in whole degrees, the
taxicab distance in place of the haversine formula, every file operation succeeding. -/
def demoWorld : World Nat Nat :=
  { NumCPU := 1
    haversineDistance := fun a b =>
      ((a.Lat - b.Lat) + (b.Lat - a.Lat) + ((a.Lon - b.Lon) + (b.Lon - a.Lon)), 0)
    FormatFloat := fun m _ _ _ => if m = 0 then "0.000" else "69.093"
    createOk := true
    writeOk := fun _ _ => true }

/-- The point `("A", 0, 0)`. -/
def pointA : Record Nat := { Zip := "A", Cor := { Lat := 0, Lon := 0 } }

/-- The point `("B", 0, 1)`. -/
def pointB : Record Nat := { Zip := "B", Cor := { Lat := 0, Lon := 1 } }

/-- The start of every demo schedule: the sink creates its file, `main` starts the
four workers and leaves the start loop. -/
def schedStart : List Tid := [.sink] ++ List.replicate 5 .main

/-- The end of every demo schedule: the four workers leave their loops, send on
`done` and return, `main` closes `done` and `rescha`, the sink returns, `main`
returns. -/
def schedEnd : List Tid :=
  [.worker 0, .worker 1, .worker 2, .worker 3, .worker 0, .worker 1, .worker 2, .worker 3,
    .worker 0, .worker 1, .worker 2, .worker 3, .main, .main, .sink, .main]

/-- A complete schedule for the table `[pointA]`: worker 0 takes the point. -/
def schedOne : List Tid :=
  schedStart ++ [.main, .main, .worker 0, .worker 0, .sink, .worker 0] ++ schedEnd

/-- A complete schedule for the table `[pointA, pointB]` in which worker 0 takes both
points, so that the results arrive as (A,A), (A,B), (B,A), (B,B). -/
def schedTwoSeq : List Tid :=
  schedStart ++ [.main, .main, .main,
    .worker 0, .worker 0, .sink, .worker 0, .sink, .worker 0,
    .worker 0, .worker 0, .sink, .worker 0, .sink, .worker 0] ++ schedEnd

/-- A complete schedule for the table `[pointA, pointB]` in which worker 0 takes A and
worker 1 takes B, and the results arrive as (B,A), (A,A), (A,B), (B,B). -/
def schedTwoMixed : List Tid :=
  schedStart ++ [.main, .main, .main,
    .worker 0, .worker 1, .worker 1, .sink, .worker 0, .sink, .worker 0, .sink,
    .worker 1, .sink, .worker 0, .worker 1] ++ schedEnd

/-- A schedule for the table `[pointA]` that stops when the work queue is drained and
worker 0 is back at the head of its loop, before any worker has signalled. -/
def schedDrained : List Tid :=
  schedStart ++ [.main, .main, .worker 0, .worker 0, .worker 0]

/-- A schedule for the table `[pointA, pointB]` that stops when worker 0 has taken
`pointA` and stands before its first push. -/
def schedTwoTaken : List Tid :=
  schedStart ++ [.main, .main, .main, .worker 0]

/-! ## The invariants -/

/-- The control invariant: how the position of `main`, the positions of the
workers and the state of the three channels constrain each other. -/
structure Ctl {φ μ : Type} (W : World φ μ) (c : Config φ μ) : Prop where
  noPanic : c.panicked = false
  len : c.workers.length = c.main.started W
  spawnLe : ∀ i, c.main = .spawn i → i ≤ numWorkers W
  leftSrc : ∀ w ∈ c.workers, w.left = true → c.srccha.closed = true ∧ c.srccha.queue = []
  srcClosed : c.srccha.closed = true → 2 ≤ c.main.phase
  awaitN : ∀ n, c.main = .await n →
    n = (numWorkers W : Int) - (c.workers.countP Worker.past : Int)
  allPast : 3 ≤ c.main.phase → ∀ w ∈ c.workers, w.past = true
  srcEmpty : 3 ≤ c.main.phase → c.srccha.queue = []
  doneCl : c.doneClosed = true → 4 ≤ c.main.phase
  resCl : c.rescha.closed = true → 5 ≤ c.main.phase
  recvd : c.doneReceived = c.workers.countP Worker.past
  sig : ∀ w ∈ c.workers, w.signals = if w.past then 1 else 0

/-- The data invariant: what the workers have taken and pushed, what the channels
hold and what the sink has received account for each other. -/
structure Data {φ μ : Type} (W : World φ μ) (records : List (Record φ))
    (c : Config φ μ) : Prop where
  pushedPerm : (c.workers.flatMap Worker.pushed).Perm (c.sink.received ++ c.rescha.queue)
  pushedEq : ∀ w ∈ c.workers, w.pushed ++ w.pending W = w.taken.flatMap (rowsFor W records)
  takenPerm :
    (c.workers.flatMap Worker.taken ++ c.srccha.queue ++ c.main.unsent records).Perm records
  sinkLoop : c.sink.pc ≠ .returned →
    collectLoop W SinkState.init c.sink.received = some c.sink.st
  sinkCreated : c.sink.pc ≠ .creating → W.createOk = true
  sinkDone : c.sink.pc = .returned →
    c.rescha.queue = [] ∧ c.rescha.closed = true ∧
      collectDistances W c.sink.received = some c.sink.st.written

/-- The wait-group invariant: `wg` counts the goroutines that have not returned, and
`main` returns only when it is zero. -/
structure Wg {φ μ : Type} (c : Config φ μ) : Prop where
  wgEq : c.wg = (if c.sink.pc = .returned then 0 else 1) + (c.workers.countP Worker.live : Int)
  exitedWg : c.main = .exited → c.wg = 0

/-- Everything that has been sent on `rescha`, in the order sent: what the sink has
taken off the channel, then what the channel still holds. -/
def Config.conduit {φ μ : Type} (c : Config φ μ) : List (Distance μ) :=
  c.sink.received ++ c.rescha.queue

/-- The order invariant: what a worker has pushed lies on the conduit in the order it
was pushed. -/
structure Order {φ μ : Type} (c : Config φ μ) : Prop where
  pushedSub : ∀ w ∈ c.workers, w.pushed.Sublist c.conduit

/-! ## Progress: a measure of the work that remains -/

/-- The steps a worker has still to take, the points still in `srccha` not counted. -/
def Worker.potential {φ μ : Type} (w : Worker φ μ) : Nat :=
  match w.pc with
  | .ranging => 3
  | .pushing _ todo => 2 * todo.length + 4
  | .signalling => 2
  | .deferred => 1
  | .returned => 0

/-- The steps the sink has still to take, the results still in `rescha` not counted. -/
def Sink.potential {μ : Type} (s : Sink μ) : Nat :=
  match s.pc with
  | .creating => 2
  | .looping => 1
  | .returned => 0

/-- The steps a point in `srccha` costs: the receive, a push and a receive by the sink
for every point of the table, and the return to the head of the loop. -/
def pointCost {φ : Type} (records : List (Record φ)) : Nat := 2 * records.length + 2

/-- The steps `main` has still to take, with those of the workers it has not started
and of the points it has not sent. -/
def MainPc.potential {φ μ : Type} (W : World φ μ) (records : List (Record φ)) :
    MainPc φ → Nat
  | .spawn i => (numWorkers W - i) * 4 + 1 + (records.length * (1 + pointCost records) + 4)
  | .fill todo => todo.length * (1 + pointCost records) + 4
  | .await _ => 3
  | .closeDone => 3
  | .closeRes => 2
  | .wait => 1
  | .exited => 0

/-- The number of steps that remain until `main` returns. -/
def Config.potential {φ μ : Type} (W : World φ μ) (records : List (Record φ))
    (c : Config φ μ) : Nat :=
  c.main.potential W records + (c.workers.map Worker.potential).sum + c.sink.potential +
    pointCost records * c.srccha.queue.length + c.rescha.queue.length

/-- The invariant behind progress, for a world in which the file operations succeed
and there is at least one CPU. -/
structure Live {φ μ : Type} (records : List (Record φ)) (c : Config φ μ) : Prop where
  noAbort : c.aborted = false
  srcCap : c.srccha.cap = records.length
  resCap : c.rescha.cap = 100
  srcClosedAt : 2 ≤ c.main.phase → c.srccha.closed = true
  resClosedAt : 5 ≤ c.main.phase → c.rescha.closed = true
  awaitPos : ∀ n, c.main = .await n → 1 ≤ n


/-! ## The sink: what the flushed batches contain -/

section SinkLemmas

variable {φ μ : Type}

theorem resultRows_append (a b : List (List Row)) :
    resultRows (a ++ b) = resultRows a ++ resultRows b := by
  simp [resultRows]

theorem resultRows_newBuffer : resultRows [newBuffer] = [] := by
  simp [resultRows, newBuffer]

theorem resultRows_snoc (buf : List Row) (row : Row) (h : row.length = 3) :
    resultRows [buf ++ [row]] = resultRows [buf] ++ [row] := by
  simp [resultRows, List.filter_append, h]

theorem collectIter_rows (W : World φ μ) (st st1 : SinkState) (dis : Distance μ)
    (h : collectIter W st dis = some st1) :
    st1.rows = st.rows ++ (if dis.src != dis.dst then [formatRow W dis] else []) ∧
      (st1.count = 0 → st1.buffer = newBuffer) := by
  unfold collectIter flushBuffer at h
  by_cases hne : (dis.src != dis.dst) = true
  · simp only [hne, if_true] at h
    split at h
    · split at h
      · cases h
        simp only [SinkState.rows, resultRows_append, resultRows_newBuffer, hne, if_true,
          List.append_nil, true_and, implies_true, and_true]
        rw [resultRows_snoc _ _ (by rfl)]
        simp [formatRow]
      · cases h
    · rename_i hc
      cases h
      refine ⟨?_, ?_⟩
      · simp only [SinkState.rows, resultRows_append, hne, if_true]
        rw [resultRows_snoc _ _ (by rfl)]
        simp [formatRow]
      · intro h0
        simp at hc h0
  · simp only [hne] at h
    simp only [Bool.false_eq_true, if_false] at h
    split at h
    · split at h
      · cases h
        have : resultRows [st.buffer, newBuffer] = resultRows [st.buffer] := by
          rw [show [st.buffer, newBuffer] = [st.buffer] ++ [newBuffer] from rfl,
            resultRows_append, resultRows_newBuffer, List.append_nil]
        simp [SinkState.rows, resultRows_append, hne, this]
      · cases h
    · rename_i hc
      cases h
      refine ⟨by simp [hne], ?_⟩
      intro h0
      simp [h0] at hc

theorem collectLoop_rows (W : World φ μ) (reschan : List (Distance μ)) :
    ∀ (st st1 : SinkState), collectLoop W st reschan = some st1 →
      (st.count = 0 → st.buffer = newBuffer) →
      st1.rows = st.rows ++ (reschan.filter (fun dis => dis.src != dis.dst)).map (formatRow W) ∧
        (st1.count = 0 → st1.buffer = newBuffer) := by
  induction reschan with
  | nil =>
    intro st st1 h hpre
    simp only [collectLoop, Option.some.injEq] at h
    subst h
    exact ⟨by simp, hpre⟩
  | cons dis rest ih =>
    intro st st1 h _
    simp only [collectLoop] at h
    split at h
    · rename_i st2 h2
      obtain ⟨hr, hb⟩ := collectIter_rows W st st2 dis h2
      obtain ⟨hr1, hb1⟩ := ih st2 st1 h hb
      refine ⟨?_, hb1⟩
      rw [hr1, hr]
      by_cases hne : (dis.src != dis.dst) = true
      · simp [List.filter_cons, hne]
      · simp [List.filter_cons, hne]
    · cases h

theorem collectLoop_append (W : World φ μ) (xs ys : List (Distance μ)) :
    ∀ st : SinkState, collectLoop W st (xs ++ ys) =
      (collectLoop W st xs).bind (fun st1 => collectLoop W st1 ys) := by
  induction xs with
  | nil => intro st; simp [collectLoop]
  | cons x xs ih =>
    intro st
    simp only [List.cons_append, collectLoop]
    cases collectIter W st x with
    | none => simp
    | some st1 => simpa using ih st1

theorem collectFinish_rows (W : World φ μ) (st st1 : SinkState)
    (h : collectFinish W st = some st1) (hpre : st.count = 0 → st.buffer = newBuffer) :
    resultRows st1.written = st.rows := by
  unfold collectFinish at h
  split at h
  · split at h
    · cases h; rfl
    · cases h
  · rename_i hc
    cases h
    have h0 : st.count = 0 := by omega
    simp [SinkState.rows, resultRows_append, hpre h0, resultRows_newBuffer]

theorem collectDistances_rows (W : World φ μ) (reschan : List (Distance μ))
    (out : List (List Row)) (h : collectDistances W reschan = some out) :
    resultRows out = (reschan.filter (fun dis => dis.src != dis.dst)).map (formatRow W) := by
  unfold collectDistances at h
  split at h
  · split at h
    · rename_i st hl
      split at h
      · rename_i st1 hf
        cases h
        obtain ⟨hr, hb⟩ := collectLoop_rows W reschan SinkState.init st hl (fun _ => rfl)
        rw [collectFinish_rows W st st1 hf hb, hr]
        simp [SinkState.rows, SinkState.init, resultRows_newBuffer]
      · cases h
    · cases h
  · cases h

theorem collectLoop_isSome (W : World φ μ) (hw : ∀ l b, W.writeOk l b = true)
    (reschan : List (Distance μ)) :
    ∀ st : SinkState, (collectLoop W st reschan).isSome = true := by
  induction reschan with
  | nil => intro st; rfl
  | cons dis rest ih =>
    intro st
    have : (collectIter W st dis).isSome = true := by
      unfold collectIter flushBuffer
      simp only [hw, if_true]
      split_ifs <;> rfl
    obtain ⟨st1, h1⟩ := Option.isSome_iff_exists.mp this
    simp only [collectLoop, h1]
    exact ih st1

theorem collectDistances_isSome (W : World φ μ) (hc : W.createOk = true)
    (hw : ∀ l b, W.writeOk l b = true) (reschan : List (Distance μ)) :
    (collectDistances W reschan).isSome = true := by
  unfold collectDistances
  simp only [hc, if_true]
  have h1 := collectLoop_isSome W hw reschan SinkState.init
  obtain ⟨st, hst⟩ := Option.isSome_iff_exists.mp h1
  simp only [hst]
  have h2 : ∃ st1, collectFinish W st = some st1 := by
    unfold collectFinish
    simp only [hw, if_true]
    by_cases h0 : st.count > 0
    · exact ⟨_, if_pos h0⟩
    · exact ⟨_, if_neg h0⟩
  obtain ⟨st1, hst1⟩ := h2
  simp [hst1]

end SinkLemmas

/-! ## The control invariant of the coordinator and the workers -/

section ListSet

variable {α β : Type}

theorem countP_set_same (p : α → Bool) (l : List α) (i : Nat) (a b : α)
    (h : l[i]? = some a) (hp : p b = p a) : (l.set i b).countP p = l.countP p := by
  obtain ⟨hi, rfl⟩ := List.getElem?_eq_some.mp h
  rw [List.countP_set p l i b hi, hp]
  by_cases hpa : p l[i] = true
  · have : 0 < l.countP p := List.countP_pos_iff.mpr ⟨l[i], List.getElem_mem hi, hpa⟩
    simp only [hpa, if_true]
    omega
  · simp [hpa]

theorem countP_set_succ (p : α → Bool) (l : List α) (i : Nat) (a b : α)
    (h : l[i]? = some a) (ha : p a = false) (hb : p b = true) :
    (l.set i b).countP p = l.countP p + 1 := by
  obtain ⟨hi, rfl⟩ := List.getElem?_eq_some.mp h
  rw [List.countP_set p l i b hi, ha, hb]
  simp

theorem countP_set_pred (p : α → Bool) (l : List α) (i : Nat) (a b : α)
    (h : l[i]? = some a) (ha : p a = true) (hb : p b = false) :
    (l.set i b).countP p + 1 = l.countP p := by
  obtain ⟨hi, rfl⟩ := List.getElem?_eq_some.mp h
  rw [List.countP_set p l i b hi, ha, hb]
  have : 0 < l.countP p := List.countP_pos_iff.mpr ⟨l[i], List.getElem_mem hi, ha⟩
  simp only [if_true, Bool.false_eq_true, if_false]
  omega

theorem forall_mem_set {P : α → Prop} (l : List α) (i : Nat) (b : α)
    (hl : ∀ x ∈ l, P x) (hb : P b) : ∀ x ∈ l.set i b, P x := by
  intro x hx
  rcases List.mem_or_eq_of_mem_set hx with hx | rfl
  · exact hl x hx
  · exact hb

theorem flatMap_set_perm (f : α → List β) (extra : List β) (b : α) :
    ∀ (l : List α) (i : Nat) (a : α), l[i]? = some a → f b = f a ++ extra →
      ((l.set i b).flatMap f).Perm (l.flatMap f ++ extra) := by
  intro l
  induction l with
  | nil => intro i a h; simp at h
  | cons x xs ih =>
    intro i a h hf
    cases i with
    | zero =>
      simp only [List.getElem?_cons_zero, Option.some.injEq] at h
      subst h
      simp only [List.set_cons_zero, List.flatMap_cons, hf, List.append_assoc]
      exact List.Perm.append_left _ List.perm_append_comm
    | succ j =>
      simp only [List.getElem?_cons_succ] at h
      simp only [List.set_cons_succ, List.flatMap_cons, List.append_assoc]
      exact List.Perm.append_left _ (ih j a h hf)

theorem flatMap_set_same (f : α → List β) (b : α) (l : List α) (i : Nat) (a : α)
    (h : l[i]? = some a) (hf : f b = f a) : ((l.set i b).flatMap f).Perm (l.flatMap f) := by
  have := flatMap_set_perm f [] b l i a h (by simp [hf])
  simpa using this

end ListSet

section Control

variable {φ μ : Type}

theorem ctl_init (W : World φ μ) (records : List (Record φ)) :
    Ctl W (Config.init records : Config φ μ) := by
  constructor <;> simp [Config.init, MainPc.started, MainPc.phase]

theorem ctl_collectDistancesStep (W : World φ μ) (c : Config φ μ) (h : Ctl W c) :
    Ctl W (collectDistancesStep W c) := by
  obtain ⟨h1, h2, h3, h4, h5, h6, h7, h8, h9, h10, h11, h12⟩ := h
  unfold collectDistancesStep
  split
  · split <;> exact ⟨h1, h2, h3, h4, h5, h6, h7, h8, h9, h10, h11, h12⟩
  · split
    · split <;> exact ⟨h1, h2, h3, h4, h5, h6, h7, h8, h9, h10, h11, h12⟩
    · split
      · split <;> exact ⟨h1, h2, h3, h4, h5, h6, h7, h8, h9, h10, h11, h12⟩
      · exact ⟨h1, h2, h3, h4, h5, h6, h7, h8, h9, h10, h11, h12⟩
  · exact ⟨h1, h2, h3, h4, h5, h6, h7, h8, h9, h10, h11, h12⟩

theorem ctl_srcOpen_not_left (W : World φ μ) (c : Config φ μ) (h : Ctl W c)
    (hp : c.main.phase < 2) : c.srccha.closed = false ∧ (∀ w ∈ c.workers, w.left = false) ∧
      (∀ w ∈ c.workers, w.past = false) ∧ c.workers.countP Worker.past = 0 := by
  have hsrc : c.srccha.closed = false := by
    cases hc : c.srccha.closed
    · rfl
    · have := h.srcClosed hc; omega
  have hnl : ∀ w ∈ c.workers, w.left = false := by
    intro w hw
    cases hl : w.left
    · rfl
    · have := (h.leftSrc w hw hl).1; simp [hsrc] at this
  have hnp : ∀ w ∈ c.workers, w.past = false := by
    intro w hw
    have := hnl w hw
    unfold Worker.left at this
    unfold Worker.past
    split at this <;> simp_all
  refine ⟨hsrc, hnl, hnp, ?_⟩
  rw [List.countP_eq_zero]
  intro w hw
  simp [hnp w hw]

theorem ctl_mainStep (W : World φ μ) (records : List (Record φ)) (c : Config φ μ)
    (h : Ctl W c) : Ctl W (mainStep W records c) := by
  unfold mainStep
  split
  · -- spawn
    rename_i i hm
    have hp : c.main.phase = 0 := by rw [hm]; rfl
    obtain ⟨hsrc, hnl, hnp, hcnt⟩ := ctl_srcOpen_not_left W c h (by omega)
    have hlen := h.len
    rw [hm] at hlen
    simp only [MainPc.started] at hlen
    have hdc : c.doneClosed = false := by
      cases hc : c.doneClosed
      · rfl
      · have := h.doneCl hc; omega
    have hrc : c.rescha.closed = false := by
      cases hc : c.rescha.closed
      · rfl
      · have := h.resCl hc; omega
    split
    · rename_i hlt
      constructor
      · exact h.noPanic
      · simp [MainPc.started, hlen]
      · intro j hj
        cases hj
        omega
      · intro w hw hl
        simp only [List.mem_append, List.mem_singleton] at hw
        rcases hw with hw | rfl
        · exact h.leftSrc w hw hl
        · simp [Worker.left] at hl
      · simp [hsrc]
      · intro n hn; cases hn
      · simp [MainPc.phase]
      · simp [MainPc.phase]
      · simp [hdc]
      · simp [hrc]
      · simpa [List.countP_append, Worker.past] using h.recvd
      · intro w hw
        simp only [List.mem_append, List.mem_singleton] at hw
        rcases hw with hw | rfl
        · exact h.sig w hw
        · simp [Worker.past]
    · rename_i hge
      have hi := h.spawnLe i hm
      constructor
      · exact h.noPanic
      · simp only [MainPc.started]; omega
      · intro j hj; cases hj
      · exact h.leftSrc
      · simp [hsrc]
      · intro n hn; cases hn
      · simp [MainPc.phase]
      · simp [MainPc.phase]
      · simp [hdc]
      · simp [hrc]
      · exact h.recvd
      · exact h.sig
  · -- fill (src :: rest)
    rename_i src rest hm
    have hp : c.main.phase = 1 := by rw [hm]; rfl
    obtain ⟨hsrc, hnl, hnp, hcnt⟩ := ctl_srcOpen_not_left W c h (by omega)
    have hlen := h.len
    rw [hm] at hlen
    simp only [MainPc.started] at hlen
    have hdc : c.doneClosed = false := by
      cases hc : c.doneClosed
      · rfl
      · have := h.doneCl hc; omega
    have hrc : c.rescha.closed = false := by
      cases hc : c.rescha.closed
      · rfl
      · have := h.resCl hc; omega
    split
    · constructor
      · exact h.noPanic
      · simpa [MainPc.started] using hlen
      · intro j hj; cases hj
      · intro w hw hl
        have := hnl w hw
        simp [hl] at this
      · simp [hsrc]
      · intro n hn; cases hn
      · simp [MainPc.phase]
      · simp [MainPc.phase]
      · simp [hdc]
      · simp [hrc]
      · exact h.recvd
      · exact h.sig
    · exact h
  · -- fill []
    rename_i hm
    have hp : c.main.phase = 1 := by rw [hm]; rfl
    obtain ⟨hsrc, hnl, hnp, hcnt⟩ := ctl_srcOpen_not_left W c h (by omega)
    have hlen := h.len
    rw [hm] at hlen
    simp only [MainPc.started] at hlen
    have hdc : c.doneClosed = false := by
      cases hc : c.doneClosed
      · rfl
      · have := h.doneCl hc; omega
    have hrc : c.rescha.closed = false := by
      cases hc : c.rescha.closed
      · rfl
      · have := h.resCl hc; omega
    constructor
    · exact h.noPanic
    · simpa [MainPc.started] using hlen
    · intro j hj; cases hj
    · intro w hw hl
      have := hnl w hw
      simp [hl] at this
    · simp [MainPc.phase]
    · intro n hn
      cases hn
      simp [hcnt]
    · simp [MainPc.phase]
    · simp [MainPc.phase]
    · simp [hdc]
    · simp [hrc]
    · exact h.recvd
    · exact h.sig
  · -- await
    exact h
  · -- closeDone
    rename_i hm
    have hp : c.main.phase = 3 := by rw [hm]; rfl
    have hlen := h.len
    rw [hm] at hlen
    simp only [MainPc.started] at hlen
    have hrc : c.rescha.closed = false := by
      cases hc : c.rescha.closed
      · rfl
      · have := h.resCl hc; omega
    constructor
    · exact h.noPanic
    · simpa [MainPc.started] using hlen
    · intro j hj; cases hj
    · exact h.leftSrc
    · simp [MainPc.phase]
    · intro n hn; cases hn
    · intro _; exact h.allPast (by omega)
    · intro _; exact h.srcEmpty (by omega)
    · simp [MainPc.phase]
    · simp [hrc]
    · exact h.recvd
    · exact h.sig
  · -- closeRes
    rename_i hm
    have hp : c.main.phase = 4 := by rw [hm]; rfl
    have hlen := h.len
    rw [hm] at hlen
    simp only [MainPc.started] at hlen
    constructor
    · exact h.noPanic
    · simpa [MainPc.started] using hlen
    · intro j hj; cases hj
    · exact h.leftSrc
    · simp [MainPc.phase]
    · intro n hn; cases hn
    · intro _; exact h.allPast (by omega)
    · intro _; exact h.srcEmpty (by omega)
    · simp [MainPc.phase]
    · simp [MainPc.phase]
    · exact h.recvd
    · exact h.sig
  · -- wait
    rename_i hm
    have hp : c.main.phase = 5 := by rw [hm]; rfl
    have hlen := h.len
    rw [hm] at hlen
    simp only [MainPc.started] at hlen
    split
    · constructor
      · exact h.noPanic
      · simpa [MainPc.started] using hlen
      · intro j hj; cases hj
      · exact h.leftSrc
      · simp [MainPc.phase]
      · intro n hn; cases hn
      · intro _; exact h.allPast (by omega)
      · intro _; exact h.srcEmpty (by omega)
      · simp [MainPc.phase]
      · simp [MainPc.phase]
      · exact h.recvd
      · exact h.sig
    · exact h
  · exact h

/-- A worker step that leaves `main` where it is and does not complete a send on
`done` keeps the control invariant. -/
theorem ctl_update_worker (W : World φ μ) (c : Config φ μ) (h : Ctl W c) (i : Nat)
    (w w1 : Worker φ μ) (hi : c.workers[i]? = some w) (hpast : w1.past = w.past)
    (hsig : w1.signals = w.signals) (srcq : List (Record φ)) (resq : List (Distance μ))
    (g : Int) (hq : c.srccha.queue = [] → srcq = [])
    (hleft : w1.left = true → c.srccha.closed = true ∧ srcq = []) :
    Ctl W { c with
      workers := c.workers.set i w1
      srccha := { c.srccha with queue := srcq }
      rescha := { c.rescha with queue := resq }
      wg := g } := by
  have hmem : w ∈ c.workers := List.getElem?_mem hi
  have hcnt : (c.workers.set i w1).countP Worker.past = c.workers.countP Worker.past :=
    countP_set_same Worker.past c.workers i w w1 hi hpast
  constructor
  · exact h.noPanic
  · simpa using h.len
  · exact h.spawnLe
  · apply forall_mem_set
    · intro x hx hl
      obtain ⟨h1, h2⟩ := h.leftSrc x hx hl
      exact ⟨h1, hq h2⟩
    · exact hleft
  · exact h.srcClosed
  · intro n hn
    simp only [hcnt]
    exact h.awaitN n hn
  · intro hp
    apply forall_mem_set
    · exact h.allPast hp
    · rw [hpast]; exact h.allPast hp w hmem
  · intro hp
    exact hq (h.srcEmpty hp)
  · exact h.doneCl
  · exact h.resCl
  · simp only [hcnt]
    exact h.recvd
  · apply forall_mem_set
    · exact h.sig
    · rw [hsig, hpast]; exact h.sig w hmem

theorem ctl_rescha_open_of_not_past (W : World φ μ) (c : Config φ μ) (h : Ctl W c)
    (w : Worker φ μ) (hw : w ∈ c.workers) (hp : w.past = false) :
    c.rescha.closed = false ∧ c.doneClosed = false ∧ c.main.phase < 3 := by
  have h3 : c.main.phase < 3 := by
    by_contra hge
    have := h.allPast (by omega) w hw
    simp [hp] at this
  refine ⟨?_, ?_, h3⟩
  · cases hc : c.rescha.closed
    · rfl
    · have := h.resCl hc; omega
  · cases hc : c.doneClosed
    · rfl
    · have := h.doneCl hc; omega

theorem ctl_calcDistancesStep (W : World φ μ) (records : List (Record φ)) (c : Config φ μ)
    (i : Nat) (h : Ctl W c) : Ctl W (calcDistancesStep W records c i) := by
  unfold calcDistancesStep
  split
  · exact h
  · rename_i w hi
    have hmem : w ∈ c.workers := List.getElem?_mem hi
    split
    · -- ranging
      rename_i hpc
      split
      · rename_i src rest hq
        exact ctl_update_worker W c h i w
          { w with pc := .pushing src records, taken := w.taken ++ [src] } hi
          (by simp [Worker.past, hpc]) rfl rest c.rescha.queue c.wg (by simp [hq])
          (by simp [Worker.left])
      · rename_i hq
        split
        · rename_i hcl
          exact ctl_update_worker W c h i w { w with pc := .signalling } hi
            (by simp [Worker.past, hpc]) rfl c.srccha.queue c.rescha.queue c.wg (fun x => x)
            (fun _ => ⟨hcl, hq⟩)
        · exact h
    · -- pushing, nothing left
      rename_i src hpc
      exact ctl_update_worker W c h i w { w with pc := .ranging } hi
        (by simp [Worker.past, hpc]) rfl c.srccha.queue c.rescha.queue c.wg (fun x => x)
        (by simp [Worker.left])
    · -- pushing
      rename_i src dst rest hpc
      obtain ⟨hrc, -, -⟩ :=
        ctl_rescha_open_of_not_past W c h w hmem (by simp [Worker.past, hpc])
      split
      · rename_i hcl
        simp [hrc] at hcl
      split
      · exact ctl_update_worker W c h i w
          { w with pc := .pushing src rest, pushed := w.pushed ++ [mkDistance W src dst] } hi
          (by simp [Worker.past, hpc]) rfl c.srccha.queue
          (c.rescha.queue ++ [mkDistance W src dst]) c.wg (fun x => x) (by simp [Worker.left])
      · exact h
    · -- signalling
      rename_i hpc
      have hnp : w.past = false := by simp [Worker.past, hpc]
      obtain ⟨hrc, hdc, hph⟩ := ctl_rescha_open_of_not_past W c h w hmem hnp
      obtain ⟨hsc, hsq⟩ := h.leftSrc w hmem (by simp [Worker.left, hpc])
      split
      · rename_i hcl
        simp [hdc] at hcl
      split
      · rename_i n hm
        have hn := h.awaitN n hm
        have hlen := h.len
        rw [hm] at hlen
        simp only [MainPc.started] at hlen
        have hcnt : (c.workers.set i { w with pc := .deferred, signals := w.signals + 1 }).countP
            Worker.past = c.workers.countP Worker.past + 1 :=
          countP_set_succ Worker.past c.workers i w _ hi hnp (by simp [Worker.past])
        have hsig0 : w.signals = 0 := by
          have := h.sig w hmem
          simpa [hnp] using this
        constructor
        · exact h.noPanic
        · simp only [List.length_set]
          split <;> simpa [MainPc.started] using hlen
        · intro j hj
          simp only at hj
          split at hj <;> cases hj
        · apply forall_mem_set
          · exact h.leftSrc
          · intro _; exact ⟨hsc, hsq⟩
        · intro _
          simp only
          split <;> simp [MainPc.phase]
        · intro m hm1
          simp only at hm1
          simp only [hcnt]
          split at hm1
          · cases hm1
          · cases hm1
            push_cast
            omega
        · intro hp
          simp only at hp
          split at hp
          · rename_i hz
            simp only
            rw [← List.countP_eq_length, hcnt, List.length_set]
            omega
          · simp [MainPc.phase] at hp
        · intro _; exact hsq
        · simp [hdc]
        · simp [hrc]
        · simp only [hcnt]
          rw [h.recvd]
        · apply forall_mem_set
          · exact h.sig
          · simp [Worker.past, hsig0]
      · exact h
    · -- deferred
      rename_i hpc
      exact ctl_update_worker W c h i w { w with pc := .returned } hi
        (by simp [Worker.past, hpc]) rfl c.srccha.queue c.rescha.queue (c.wg - 1) (fun x => x)
        (fun _ => h.leftSrc w hmem (by simp [Worker.left, hpc]))
    · exact h

theorem ctl_step (W : World φ μ) (records : List (Record φ)) (c : Config φ μ) (t : Tid)
    (h : Ctl W c) : Ctl W (step W records c t) := by
  unfold step
  split
  · exact h
  · split
    · exact h
    · split
      · exact ctl_mainStep W records c h
      · exact ctl_collectDistancesStep W c h
      · exact ctl_calcDistancesStep W records c _ h

theorem ctl_run_from (W : World φ μ) (records : List (Record φ)) (sched : List Tid) :
    ∀ c : Config φ μ, Ctl W c → Ctl W (sched.foldl (step W records) c) := by
  induction sched with
  | nil => intro c h; exact h
  | cons t ts ih => intro c h; exact ih _ (ctl_step W records c t h)

theorem ctl_run (W : World φ μ) (records : List (Record φ)) (sched : List Tid) :
    Ctl W (run W records sched) :=
  ctl_run_from W records sched _ (ctl_init W records)

end Control
/-! ## The data invariant: no result is lost or duplicated on the way to the sink -/

section DataFlow

variable {φ μ : Type}

theorem data_init (W : World φ μ) (records : List (Record φ)) :
    Data W records (Config.init records : Config φ μ) := by
  constructor <;> simp [Config.init, MainPc.unsent, collectLoop]

theorem data_mainStep (W : World φ μ) (records : List (Record φ)) (c : Config φ μ)
    (h : Data W records c) : Data W records (mainStep W records c) := by
  unfold mainStep
  split
  · rename_i i hm
    have hu := h.takenPerm
    rw [hm] at hu
    simp only [MainPc.unsent] at hu
    split
    · constructor
      · simpa [List.flatMap_append] using h.pushedPerm
      · intro w hw
        simp only [List.mem_append, List.mem_singleton] at hw
        rcases hw with hw | rfl
        · exact h.pushedEq w hw
        · simp [Worker.pending]
      · simpa [List.flatMap_append, MainPc.unsent] using hu
      · exact h.sinkLoop
      · exact h.sinkCreated
      · exact h.sinkDone
    · exact ⟨h.pushedPerm, h.pushedEq, by simpa [MainPc.unsent] using hu, h.sinkLoop,
        h.sinkCreated, h.sinkDone⟩
  · rename_i src rest hm
    have hu := h.takenPerm
    rw [hm] at hu
    simp only [MainPc.unsent] at hu
    split
    · refine ⟨h.pushedPerm, h.pushedEq, ?_, h.sinkLoop, h.sinkCreated, h.sinkDone⟩
      simpa [MainPc.unsent, List.append_assoc] using hu
    · exact h
  · rename_i hm
    have hu := h.takenPerm
    rw [hm] at hu
    simp only [MainPc.unsent] at hu
    exact ⟨h.pushedPerm, h.pushedEq, by simpa [MainPc.unsent] using hu, h.sinkLoop,
      h.sinkCreated, h.sinkDone⟩
  · exact h
  · rename_i hm
    have hu := h.takenPerm
    rw [hm] at hu
    simp only [MainPc.unsent] at hu
    exact ⟨h.pushedPerm, h.pushedEq, by simpa [MainPc.unsent] using hu, h.sinkLoop,
      h.sinkCreated, h.sinkDone⟩
  · rename_i hm
    have hu := h.takenPerm
    rw [hm] at hu
    simp only [MainPc.unsent] at hu
    refine ⟨h.pushedPerm, h.pushedEq, by simpa [MainPc.unsent] using hu, h.sinkLoop,
      h.sinkCreated, ?_⟩
    intro hs
    obtain ⟨h1, -, h3⟩ := h.sinkDone hs
    exact ⟨h1, rfl, h3⟩
  · rename_i hm
    have hu := h.takenPerm
    rw [hm] at hu
    simp only [MainPc.unsent] at hu
    split
    · exact ⟨h.pushedPerm, h.pushedEq, by simpa [MainPc.unsent] using hu, h.sinkLoop,
        h.sinkCreated, h.sinkDone⟩
    · exact h
  · exact h

theorem data_collectDistancesStep (W : World φ μ) (records : List (Record φ)) (c : Config φ μ)
    (h : Data W records c) : Data W records (collectDistancesStep W c) := by
  unfold collectDistancesStep
  split
  · rename_i hpc
    split
    · rename_i hok
      refine ⟨h.pushedPerm, h.pushedEq, h.takenPerm, ?_, fun _ => hok, ?_⟩
      · intro _
        exact h.sinkLoop (by simp [hpc])
      · intro hs
        simp at hs
    · exact ⟨h.pushedPerm, h.pushedEq, h.takenPerm, h.sinkLoop, h.sinkCreated, h.sinkDone⟩
  · rename_i hpc
    have hloop := h.sinkLoop (by simp [hpc])
    have hok := h.sinkCreated (by simp [hpc])
    split
    · rename_i dis rest hq
      split
      · rename_i st1 hit
        refine ⟨?_, h.pushedEq, h.takenPerm, ?_, fun _ => hok, ?_⟩
        · have := h.pushedPerm
          rw [hq] at this
          simpa [List.append_assoc] using this
        · intro _
          simp only [collectLoop_append, hloop, Option.bind, collectLoop, hit]
        · intro hs
          simp at hs
      · exact ⟨h.pushedPerm, h.pushedEq, h.takenPerm, h.sinkLoop, h.sinkCreated, h.sinkDone⟩
    · rename_i hq
      split
      · rename_i hcl
        split
        · rename_i st1 hfin
          refine ⟨h.pushedPerm, h.pushedEq, h.takenPerm, ?_, fun _ => hok, ?_⟩
          · intro hs
            simp at hs
          · intro _
            refine ⟨hq, hcl, ?_⟩
            simp only [collectDistances, hok, if_true, hloop, hfin]
        · exact ⟨h.pushedPerm, h.pushedEq, h.takenPerm, h.sinkLoop, h.sinkCreated, h.sinkDone⟩
      · exact h
  · exact h

/-- A worker step keeps the data invariant when what the worker takes comes off the
head of `srccha` and what it pushes goes to the tail of `rescha`. -/
theorem data_update_worker (W : World φ μ) (records : List (Record φ)) (c : Config φ μ)
    (h : Data W records c) (i : Nat) (w w1 : Worker φ μ) (hi : c.workers[i]? = some w)
    (extraT : List (Record φ)) (extraP : List (Distance μ))
    (ht : w1.taken = w.taken ++ extraT) (hp : w1.pushed = w.pushed ++ extraP)
    (heq : w1.pushed ++ w1.pending W = w1.taken.flatMap (rowsFor W records))
    (m : MainPc φ) (hm : m.unsent records = c.main.unsent records)
    (srcq : List (Record φ)) (hsrc : c.srccha.queue = extraT ++ srcq)
    (hcl : c.rescha.closed = true → extraP = []) (r : Nat) (g : Int) :
    Data W records { c with
      main := m
      workers := c.workers.set i w1
      srccha := { c.srccha with queue := srcq }
      rescha := { c.rescha with queue := c.rescha.queue ++ extraP }
      doneReceived := r
      wg := g } := by
  constructor
  · have h1 := flatMap_set_perm Worker.pushed extraP w1 c.workers i w hi hp
    refine h1.trans ?_
    have h2 := h.pushedPerm.append_right extraP
    simpa [List.append_assoc] using h2
  · exact forall_mem_set c.workers i w1 h.pushedEq heq
  · have h1 := flatMap_set_perm Worker.taken extraT w1 c.workers i w hi ht
    have h2 := h.takenPerm
    rw [hsrc] at h2
    simp only [hm]
    refine List.Perm.trans ?_ h2
    simp only [List.append_assoc]
    exact (h1.append_right _).trans (by simp [List.append_assoc])
  · exact h.sinkLoop
  · exact h.sinkCreated
  · intro hs
    obtain ⟨h1, h2, h3⟩ := h.sinkDone hs
    refine ⟨?_, h2, h3⟩
    simp only at h1 ⊢
    rw [h1, hcl h2]
    rfl

theorem data_calcDistancesStep (W : World φ μ) (records : List (Record φ)) (c : Config φ μ)
    (i : Nat) (h : Data W records c) : Data W records (calcDistancesStep W records c i) := by
  unfold calcDistancesStep
  split
  · exact h
  · rename_i w hi
    have hmem : w ∈ c.workers := List.getElem?_mem hi
    have heq := h.pushedEq w hmem
    split
    · -- ranging
      rename_i hpc
      simp only [Worker.pending, hpc, List.append_nil] at heq
      split
      · rename_i src rest hq
        have := data_update_worker W records c h i w
          { w with pc := .pushing src records, taken := w.taken ++ [src] } hi [src] []
          rfl (by simp) (by simp [Worker.pending, heq, rowsFor, List.flatMap_append])
          c.main rfl rest (by simp [hq]) (fun _ => rfl) c.doneReceived c.wg
        simpa using this
      · split
        · have := data_update_worker W records c h i w { w with pc := .signalling } hi [] []
            (by simp) (by simp) (by simp [Worker.pending, heq])
            c.main rfl c.srccha.queue (by simp) (fun _ => rfl) c.doneReceived c.wg
          simpa using this
        · exact h
    · -- pushing, nothing left
      rename_i src hpc
      simp only [Worker.pending, hpc, List.map_nil, List.append_nil] at heq
      have := data_update_worker W records c h i w { w with pc := .ranging } hi [] []
        (by simp) (by simp) (by simp [Worker.pending, heq])
        c.main rfl c.srccha.queue (by simp) (fun _ => rfl) c.doneReceived c.wg
      simpa using this
    · -- pushing
      rename_i src dst rest hpc
      simp only [Worker.pending, hpc, List.map_cons] at heq
      split
      · exact ⟨h.pushedPerm, h.pushedEq, h.takenPerm, h.sinkLoop, h.sinkCreated, h.sinkDone⟩
      · rename_i hrc
        split
        · have := data_update_worker W records c h i w
            { w with pc := .pushing src rest, pushed := w.pushed ++ [mkDistance W src dst] } hi
            [] [mkDistance W src dst] (by simp) rfl
            (by simpa [Worker.pending] using heq)
            c.main rfl c.srccha.queue (by simp) (fun hc => absurd hc hrc) c.doneReceived c.wg
          simpa using this
        · exact h
    · -- signalling
      rename_i hpc
      simp only [Worker.pending, hpc, List.append_nil] at heq
      split
      · exact ⟨h.pushedPerm, h.pushedEq, h.takenPerm, h.sinkLoop, h.sinkCreated, h.sinkDone⟩
      · split
        · rename_i n hm
          have := data_update_worker W records c h i w
            { w with pc := .deferred, signals := w.signals + 1 } hi [] []
            (by simp) (by simp) (by simp [Worker.pending, heq])
            (if n - 1 = 0 then .closeDone else .await (n - 1))
            (by rw [hm]; split <;> rfl)
            c.srccha.queue (by simp) (fun _ => rfl) (c.doneReceived + 1) c.wg
          simpa using this
        · exact h
    · -- deferred
      rename_i hpc
      simp only [Worker.pending, hpc, List.append_nil] at heq
      have := data_update_worker W records c h i w { w with pc := .returned } hi [] []
        (by simp) (by simp) (by simp [Worker.pending, heq])
        c.main rfl c.srccha.queue (by simp) (fun _ => rfl) c.doneReceived (c.wg - 1)
      simpa using this
    · exact h

theorem data_step (W : World φ μ) (records : List (Record φ)) (c : Config φ μ) (t : Tid)
    (h : Data W records c) : Data W records (step W records c t) := by
  unfold step
  split
  · exact h
  · split
    · exact h
    · split
      · exact data_mainStep W records c h
      · exact data_collectDistancesStep W records c h
      · exact data_calcDistancesStep W records c _ h

theorem data_run_from (W : World φ μ) (records : List (Record φ)) (sched : List Tid) :
    ∀ c : Config φ μ, Data W records c → Data W records (sched.foldl (step W records) c) := by
  induction sched with
  | nil => intro c h; exact h
  | cons t ts ih => intro c h; exact ih _ (data_step W records c t h)

theorem data_run (W : World φ μ) (records : List (Record φ)) (sched : List Tid) :
    Data W records (run W records sched) :=
  data_run_from W records sched _ (data_init W records)

end DataFlow
/-! ## The wait group -/

section WaitGroup

variable {φ μ : Type}

theorem wg_init (records : List (Record φ)) : Wg (Config.init records : Config φ μ) := by
  constructor <;> simp [Config.init]

theorem wg_mainStep (W : World φ μ) (records : List (Record φ)) (c : Config φ μ)
    (h : Wg c) : Wg (mainStep W records c) := by
  unfold mainStep
  split
  · split
    · constructor
      · simp only [List.countP_append, h.wgEq]
        simp [Worker.live]
        omega
      · intro hm; cases hm
    · exact ⟨h.wgEq, by intro hm; cases hm⟩
  · split
    · exact ⟨h.wgEq, by intro hm; cases hm⟩
    · exact h
  · exact ⟨h.wgEq, by intro hm; cases hm⟩
  · exact h
  · exact ⟨h.wgEq, by intro hm; cases hm⟩
  · exact ⟨h.wgEq, by intro hm; cases hm⟩
  · split
    · rename_i h0
      exact ⟨h.wgEq, fun _ => h0⟩
    · exact h
  · exact h

theorem wg_collectDistancesStep (W : World φ μ) (c : Config φ μ) (hne : c.main ≠ .exited)
    (h : Wg c) : Wg (collectDistancesStep W c) := by
  unfold collectDistancesStep
  split
  · rename_i hpc
    split
    · refine ⟨?_, fun hm => absurd hm hne⟩
      have := h.wgEq
      simpa [hpc] using this
    · exact ⟨h.wgEq, h.exitedWg⟩
  · rename_i hpc
    split
    · split
      · refine ⟨?_, fun hm => absurd hm hne⟩
        have := h.wgEq
        simpa [hpc] using this
      · exact ⟨h.wgEq, h.exitedWg⟩
    · split
      · split
        · refine ⟨?_, fun hm => absurd hm hne⟩
          have := h.wgEq
          simp only [hpc] at this
          simp only [this]
          simp
        · exact ⟨h.wgEq, h.exitedWg⟩
      · exact h
  · exact h

/-- A worker step that leaves the sink alone keeps the wait-group invariant when the
counter moves with the worker's return. -/
theorem wg_update_worker (c : Config φ μ) (h : Wg c) (i : Nat) (w w1 : Worker φ μ)
    (hi : c.workers[i]? = some w) (m : MainPc φ) (hm : m ≠ .exited)
    (srcch : Chan (Record φ)) (resch : Chan (Distance μ)) (r : Nat) (g : Int)
    (hg : (w1.live = w.live ∧ g = c.wg) ∨ (w.live = true ∧ w1.live = false ∧ g = c.wg - 1)) :
    Wg { c with
      main := m
      workers := c.workers.set i w1
      srccha := srcch
      rescha := resch
      doneReceived := r
      wg := g } := by
  refine ⟨?_, fun hx => absurd hx hm⟩
  rcases hg with ⟨hl, hg⟩ | ⟨hl, hl1, hg⟩
  · have := countP_set_same Worker.live c.workers i w w1 hi hl
    simp only [this, hg]
    exact h.wgEq
  · have := countP_set_pred Worker.live c.workers i w w1 hi hl hl1
    have h2 := h.wgEq
    simp only [hg]
    omega

theorem wg_calcDistancesStep (W : World φ μ) (records : List (Record φ)) (c : Config φ μ)
    (i : Nat) (hne : c.main ≠ .exited) (h : Wg c) : Wg (calcDistancesStep W records c i) := by
  unfold calcDistancesStep
  split
  · exact h
  · rename_i w hi
    split
    · rename_i hpc
      split
      · rename_i src rest hq
        exact wg_update_worker c h i w
          { w with pc := .pushing src records, taken := w.taken ++ [src] } hi c.main hne
          { c.srccha with queue := rest } c.rescha c.doneReceived c.wg
          (Or.inl ⟨by simp [Worker.live, hpc], rfl⟩)
      · split
        · exact wg_update_worker c h i w { w with pc := .signalling } hi c.main hne
            c.srccha c.rescha c.doneReceived c.wg (Or.inl ⟨by simp [Worker.live, hpc], rfl⟩)
        · exact h
    · rename_i src hpc
      exact wg_update_worker c h i w { w with pc := .ranging } hi c.main hne
        c.srccha c.rescha c.doneReceived c.wg (Or.inl ⟨by simp [Worker.live, hpc], rfl⟩)
    · rename_i src dst rest hpc
      split
      · exact ⟨h.wgEq, h.exitedWg⟩
      · split
        · exact wg_update_worker c h i w
            { w with pc := .pushing src rest, pushed := w.pushed ++ [mkDistance W src dst] } hi
            c.main hne c.srccha
            { c.rescha with queue := c.rescha.queue ++ [mkDistance W src dst] }
            c.doneReceived c.wg (Or.inl ⟨by simp [Worker.live, hpc], rfl⟩)
        · exact h
    · rename_i hpc
      split
      · exact ⟨h.wgEq, h.exitedWg⟩
      · split
        · rename_i n hm
          exact wg_update_worker c h i w { w with pc := .deferred, signals := w.signals + 1 } hi
            (if n - 1 = 0 then .closeDone else .await (n - 1)) (by split <;> simp)
            c.srccha c.rescha (c.doneReceived + 1) c.wg
            (Or.inl ⟨by simp [Worker.live, hpc], rfl⟩)
        · exact h
    · rename_i hpc
      exact wg_update_worker c h i w { w with pc := .returned } hi c.main hne
        c.srccha c.rescha c.doneReceived (c.wg - 1)
        (Or.inr ⟨by simp [Worker.live, hpc], by simp [Worker.live], rfl⟩)
    · exact h

theorem wg_step (W : World φ μ) (records : List (Record φ)) (c : Config φ μ) (t : Tid)
    (h : Wg c) : Wg (step W records c t) := by
  unfold step
  split
  · exact h
  · split
    · exact h
    · rename_i hne
      have hne1 : c.main ≠ .exited := fun hx => hne hx
      split
      · exact wg_mainStep W records c h
      · exact wg_collectDistancesStep W c hne1 h
      · exact wg_calcDistancesStep W records c _ hne1 h

theorem wg_run_from (W : World φ μ) (records : List (Record φ)) (sched : List Tid) :
    ∀ c : Config φ μ, Wg c → Wg (sched.foldl (step W records) c) := by
  induction sched with
  | nil => intro c h; exact h
  | cons t ts ih => intro c h; exact ih _ (wg_step W records c t h)

theorem wg_run (W : World φ μ) (records : List (Record φ)) (sched : List Tid) :
    Wg (run W records sched) :=
  wg_run_from W records sched _ (wg_init records)

end WaitGroup
/-! ## From the invariants to the output of a complete run -/

section Bridge

variable {φ μ : Type}

theorem collectIter_all (W : World φ μ) (P : Row → Prop) (hnil : P [])
    (hrow : ∀ dis : Distance μ, dis.src ≠ dis.dst → P (formatRow W dis))
    (st st1 : SinkState) (dis : Distance μ) (h : collectIter W st dis = some st1)
    (hw : ∀ b ∈ st.written, ∀ r ∈ b, P r) (hb : ∀ r ∈ st.buffer, P r) :
    (∀ b ∈ st1.written, ∀ r ∈ b, P r) ∧ (∀ r ∈ st1.buffer, P r) := by
  have hnew : ∀ r ∈ newBuffer, P r := by
    intro r hr
    simp only [newBuffer, List.mem_replicate] at hr
    rw [hr.2]; exact hnil
  unfold collectIter flushBuffer at h
  by_cases hne : (dis.src != dis.dst) = true
  · have hP : P (formatRow W dis) := hrow dis (by simpa using hne)
    have hb1 : ∀ r ∈ st.buffer ++ [formatRow W dis], P r := by
      intro r hr
      simp only [List.mem_append, List.mem_singleton] at hr
      rcases hr with hr | rfl
      · exact hb r hr
      · exact hP
    simp only [hne, if_true] at h
    split at h
    · split at h
      · cases h
        refine ⟨?_, hnew⟩
        intro b hbm
        simp only [List.mem_append, List.mem_singleton] at hbm
        rcases hbm with hbm | rfl
        · exact hw b hbm
        · exact hb1
      · cases h
    · cases h
      exact ⟨hw, hb1⟩
  · simp only [hne] at h
    simp only [Bool.false_eq_true, if_false] at h
    split at h
    · split at h
      · cases h
        refine ⟨?_, hnew⟩
        intro b hbm
        simp only [List.mem_append, List.mem_singleton] at hbm
        rcases hbm with hbm | rfl
        · exact hw b hbm
        · exact hb
      · cases h
    · cases h
      exact ⟨hw, hb⟩

theorem collectLoop_all (W : World φ μ) (P : Row → Prop) (hnil : P [])
    (hrow : ∀ dis : Distance μ, dis.src ≠ dis.dst → P (formatRow W dis))
    (reschan : List (Distance μ)) :
    ∀ (st st1 : SinkState), collectLoop W st reschan = some st1 →
      (∀ b ∈ st.written, ∀ r ∈ b, P r) → (∀ r ∈ st.buffer, P r) →
      (∀ b ∈ st1.written, ∀ r ∈ b, P r) ∧ (∀ r ∈ st1.buffer, P r) := by
  induction reschan with
  | nil =>
    intro st st1 h hw hb
    simp only [collectLoop, Option.some.injEq] at h
    subst h
    exact ⟨hw, hb⟩
  | cons dis rest ih =>
    intro st st1 h hw hb
    simp only [collectLoop] at h
    split at h
    · rename_i st2 h2
      obtain ⟨hw2, hb2⟩ := collectIter_all W P hnil hrow st st2 dis h2 hw hb
      exact ih st2 st1 h hw2 hb2
    · cases h

theorem collectDistances_all (W : World φ μ) (P : Row → Prop) (hnil : P [])
    (hrow : ∀ dis : Distance μ, dis.src ≠ dis.dst → P (formatRow W dis))
    (reschan : List (Distance μ)) (out : List (List Row))
    (h : collectDistances W reschan = some out) : ∀ b ∈ out, ∀ r ∈ b, P r := by
  unfold collectDistances at h
  split at h
  · split at h
    · rename_i st hl
      have hinit : ∀ r ∈ SinkState.init.buffer, P r := by
        intro r hr
        simp only [SinkState.init, newBuffer, List.mem_replicate] at hr
        rw [hr.2]; exact hnil
      obtain ⟨hw, hb⟩ := collectLoop_all W P hnil hrow reschan SinkState.init st hl
        (by simp [SinkState.init]) hinit
      split at h
      · rename_i st1 hf
        cases h
        unfold collectFinish at hf
        split at hf
        · split at hf
          · cases hf
            intro b hbm
            simp only [List.mem_append, List.mem_singleton] at hbm
            rcases hbm with hbm | rfl
            · exact hw b hbm
            · exact hb
          · cases hf
        · cases hf
          exact hw
      · cases h
    · cases h
  · cases h

/-- When the sink has returned, it has received every result of the table once, in
some order, and has written what `collectDistances` writes on that stream. -/
theorem sink_returned (W : World φ μ) (records : List (Record φ)) (sched : List Tid)
    (hs : (run W records sched).sink.pc = .returned) :
    (run W records sched).sink.received.Perm (allPairs W records) ∧
      collectDistances W (run W records sched).sink.received =
        some (run W records sched).sink.st.written := by
  have hC := ctl_run W records sched
  have hD := data_run W records sched
  generalize run W records sched = c at hs hC hD
  obtain ⟨hq, hcl, hout⟩ := hD.sinkDone hs
  refine ⟨?_, hout⟩
  have hph := hC.resCl hcl
  have hpast := hC.allPast (by omega)
  have hsq := hC.srcEmpty (by omega)
  have hun : c.main.unsent records = [] := by
    cases hm : c.main <;> simp [hm, MainPc.phase] at hph <;> rfl
  have htaken := hD.takenPerm
  rw [hsq, hun] at htaken
  simp only [List.append_nil] at htaken
  have hpushed : c.workers.flatMap Worker.pushed =
      (c.workers.flatMap Worker.taken).flatMap (rowsFor W records) := by
    rw [List.flatMap_assoc]
    apply List.flatMap_congr
    intro w hw
    have h1 := hD.pushedEq w hw
    have h2 : w.pending W = [] := by
      have := hpast w hw
      unfold Worker.past at this
      unfold Worker.pending
      split at this <;> simp_all
    simpa [h2] using h1
  have h3 := hD.pushedPerm
  rw [hq, List.append_nil, hpushed] at h3
  exact h3.symm.trans (htaken.flatMap_right _)

/-- When `main` has returned, the sink has returned. -/
theorem exited_sink_returned (W : World φ μ) (records : List (Record φ)) (sched : List Tid)
    (hm : (run W records sched).main = .exited) :
    (run W records sched).sink.pc = .returned := by
  have hG := wg_run W records sched
  generalize run W records sched = c at hm hG
  have h0 := hG.exitedWg hm
  have h1 := hG.wgEq
  by_contra hne
  simp only [hne, if_false] at h1
  omega

/-- The output of a complete run is what `collectDistances` writes on some arrival
order of the results of the table. -/
theorem pipeline_stream (W : World φ μ) (records : List (Record φ)) (sched : List Tid)
    (out : List (List Row)) (h : pipeline W records sched = some out) :
    ∃ stream : List (Distance μ), stream.Perm (allPairs W records) ∧
      collectDistances W stream = some out := by
  unfold pipeline at h
  split at h
  · rename_i hm
    cases h
    obtain ⟨h1, h2⟩ := sink_returned W records sched (exited_sink_returned W records sched hm)
    exact ⟨_, h1, h2⟩
  · cases h

/-- The result rows of a complete run: the formatted non-self results of the table,
in some order. -/
theorem pipeline_rows (W : World φ μ) (records : List (Record φ)) (sched : List Tid)
    (out : List (List Row)) (h : pipeline W records sched = some out) :
    (resultRows out).Perm
      (((allPairs W records).filter (fun dis => dis.src != dis.dst)).map (formatRow W)) := by
  obtain ⟨stream, hp, hc⟩ := pipeline_stream W records sched out h
  rw [collectDistances_rows W stream out hc]
  exact (hp.filter _).map _

end Bridge
/-! ## Counting the result rows -/

section Counting

variable {φ μ : Type}

theorem rowsFor_filter_length (W : World φ μ) (src : Record φ) (records : List (Record φ)) :
    ((rowsFor W records src).filter (fun dis => dis.src != dis.dst)).length +
      (labels records).count src.Zip = records.length := by
  induction records with
  | nil => simp [rowsFor, labels]
  | cons dst rest ih =>
    simp only [rowsFor, labels, List.map_cons, List.length_cons] at ih ⊢
    by_cases he : src.Zip = dst.Zip
    · have h1 : ((mkDistance W src dst).src != (mkDistance W src dst).dst) = false := by
        simp [mkDistance, he]
      rw [List.filter_cons_of_neg (p := fun dis : Distance μ => dis.src != dis.dst)
        (by simp [h1]), ← he, List.count_cons_self]
      omega
    · have h1 : ((mkDistance W src dst).src != (mkDistance W src dst).dst) = true := by
        simp [mkDistance, he]
      rw [List.filter_cons_of_pos (p := fun dis : Distance μ => dis.src != dis.dst) h1,
        List.count_cons_of_ne he]
      simp only [List.length_cons]
      omega

theorem flatMap_filter_length (W : World φ μ) (records : List (Record φ)) :
    ∀ srcs : List (Record φ),
      ((srcs.flatMap (rowsFor W records)).filter (fun dis => dis.src != dis.dst)).length +
        ((labels srcs).map (fun l => (labels records).count l)).sum =
          srcs.length * records.length := by
  intro srcs
  induction srcs with
  | nil => simp [labels]
  | cons src rest ih =>
    have h1 := rowsFor_filter_length W src records
    simp only [labels, List.map_cons, List.map_map, List.flatMap_cons, List.filter_append,
      List.length_append, List.sum_cons, List.length_cons] at ih h1 ⊢
    rw [Nat.add_mul]
    omega

theorem sum_count_eq_sameLabelPairs (records : List (Record φ)) :
    ((labels records).map (fun l => (labels records).count l)).sum = sameLabelPairs records := by
  have := Finset.sum_multiset_map_count ((labels records : List String) : Multiset String)
    (fun l => (labels records).count l)
  simpa [sameLabelPairs] using this

theorem allPairs_filter_length (W : World φ μ) (records : List (Record φ)) :
    ((allPairs W records).filter (fun dis => dis.src != dis.dst)).length +
      sameLabelPairs records = records.length * records.length := by
  have := flatMap_filter_length W records records
  rw [sum_count_eq_sameLabelPairs] at this
  exact this

theorem length_le_sameLabelPairs (records : List (Record φ)) :
    records.length ≤ sameLabelPairs records ∧
      (sameLabelPairs records = records.length ↔ (labels records).Nodup) := by
  have hlen : records.length = Finset.sum (labels records).toFinset
      (fun l => (labels records).count l) := by
    have := Multiset.toFinset_sum_count_eq ((labels records : List String) : Multiset String)
    simp [labels] at this
    simp [labels, this]
  have hle : ∀ l ∈ (labels records).toFinset,
      (labels records).count l ≤ (labels records).count l * (labels records).count l := by
    intro l hl
    have : 0 < (labels records).count l := List.count_pos_iff.mpr (List.mem_toFinset.mp hl)
    exact Nat.le_mul_of_pos_left _ this
  refine ⟨?_, ?_⟩
  · rw [hlen]
    exact Finset.sum_le_sum hle
  · unfold sameLabelPairs
    rw [hlen, eq_comm, Finset.sum_eq_sum_iff_of_le hle, List.nodup_iff_count_eq_one]
    constructor
    · intro h l hl
      have h1 := h l (List.mem_toFinset.mpr hl)
      have h2 : 0 < (labels records).count l := List.count_pos_iff.mpr hl
      have h3 : (labels records).count l * 1 =
          (labels records).count l * (labels records).count l := by
        rw [Nat.mul_one]; exact h1
      exact (Nat.eq_of_mul_eq_mul_left h2 h3).symm
    · intro h l hl
      rw [h l (List.mem_toFinset.mp hl)]

theorem pipeline_count (W : World φ μ) (records : List (Record φ)) (sched : List Tid)
    (out : List (List Row)) (h : pipeline W records sched = some out) :
    (resultRows out).length + sameLabelPairs records = records.length * records.length := by
  have h1 := (pipeline_rows W records sched out h).length_eq
  rw [List.length_map] at h1
  rw [h1]
  exact allPairs_filter_length W records

end Counting
/-! ## Symmetry, the workers' totals, and behaviour after a completion signal -/

section More

variable {φ μ : Type}

theorem mem_allPairs (W : World φ μ) (records : List (Record φ)) (dis : Distance μ) :
    dis ∈ allPairs W records ↔ ∃ s ∈ records, ∃ d ∈ records, dis = mkDistance W s d := by
  simp only [allPairs, calcDistances, rowsFor, List.mem_flatMap, List.mem_map]
  constructor
  · rintro ⟨s, hs, d, hd, rfl⟩
    exact ⟨s, hs, d, hd, rfl⟩
  · rintro ⟨s, hs, d, hd, rfl⟩
    exact ⟨s, hs, d, hd, rfl⟩

theorem mem_flatten_iff_resultRows (out : List (List Row)) (row : Row) (h3 : row.length = 3) :
    row ∈ out.flatten ↔ row ∈ resultRows out := by
  simp [resultRows, h3]

theorem pipeline_mem_rows (W : World φ μ) (records : List (Record φ)) (sched : List Tid)
    (out : List (List Row)) (h : pipeline W records sched = some out) (row : Row) :
    row ∈ resultRows out ↔
      ∃ s ∈ records, ∃ d ∈ records, s.Zip ≠ d.Zip ∧ row = formatRow W (mkDistance W s d) := by
  rw [(pipeline_rows W records sched out h).mem_iff]
  simp only [List.mem_map, List.mem_filter, mem_allPairs]
  constructor
  · rintro ⟨dis, ⟨⟨s, hs, d, hd, rfl⟩, hne⟩, rfl⟩
    exact ⟨s, hs, d, hd, by simpa [mkDistance] using hne, rfl⟩
  · rintro ⟨s, hs, d, hd, hne, rfl⟩
    exact ⟨mkDistance W s d, ⟨⟨s, hs, d, hd, rfl⟩, by simpa [mkDistance] using hne⟩, rfl⟩

theorem pipeline_symmetric (W : World φ μ) (records : List (Record φ)) (sched : List Tid)
    (out : List (List Row))
    (hsym : ∀ a b, (W.haversineDistance a b).1 = (W.haversineDistance b a).1)
    (h : pipeline W records sched = some out) (A B d : String)
    (hrow : [A, B, d] ∈ out.flatten) : [B, A, d] ∈ out.flatten := by
  rw [mem_flatten_iff_resultRows out [A, B, d] rfl] at hrow
  rw [mem_flatten_iff_resultRows out [B, A, d] rfl]
  rw [pipeline_mem_rows W records sched out h] at hrow ⊢
  obtain ⟨s, hs, t, ht, hne, heq⟩ := hrow
  simp only [formatRow, mkDistance, List.cons.injEq, and_true] at heq
  obtain ⟨hA, hB, hd⟩ := heq
  refine ⟨t, ht, s, hs, fun hx => hne hx.symm, ?_⟩
  simp only [formatRow, mkDistance, List.cons.injEq, and_true]
  exact ⟨hB, hA, by rw [hd, hsym]⟩

theorem pipeline_two_points (W : World φ μ) (a b : Record φ) (sched : List Tid)
    (out : List (List Row))
    (hsym : ∀ a b, (W.haversineDistance a b).1 = (W.haversineDistance b a).1)
    (hne : a.Zip ≠ b.Zip) (h : pipeline W [a, b] sched = some out) :
    (resultRows out).Perm
      [[a.Zip, b.Zip, W.FormatFloat (W.haversineDistance a.Cor b.Cor).1 'f' precision 32],
        [b.Zip, a.Zip, W.FormatFloat (W.haversineDistance a.Cor b.Cor).1 'f' precision 32]] := by
  have h1 := pipeline_rows W [a, b] sched out h
  have h2 : ((allPairs W [a, b]).filter (fun dis => dis.src != dis.dst)).map (formatRow W) =
      [[a.Zip, b.Zip, W.FormatFloat (W.haversineDistance a.Cor b.Cor).1 'f' precision 32],
        [b.Zip, a.Zip, W.FormatFloat (W.haversineDistance a.Cor b.Cor).1 'f' precision 32]] := by
    have hne1 : b.Zip ≠ a.Zip := fun hx => hne hx.symm
    simp [allPairs, calcDistances, rowsFor, mkDistance, formatRow, List.filter_cons, hne, hne1,
      hsym b.Cor a.Cor]
  rw [h2] at h1
  exact h1

theorem sum_length_eq_length_flatMap {α β : Type} (f : α → List β) (l : List α) :
    (l.map (fun x => (f x).length)).sum = (l.flatMap f).length := by
  induction l with
  | nil => rfl
  | cons x xs ih => simp [ih]

theorem length_flatMap_rowsFor (W : World φ μ) (records srcs : List (Record φ)) :
    (srcs.flatMap (rowsFor W records)).length = srcs.length * records.length := by
  induction srcs with
  | nil => simp
  | cons x xs ih => simp [ih, rowsFor, Nat.add_mul, Nat.add_comm]

/-- Once the work queue is closed and empty and no worker holds an unfinished source
point, the workers have taken every point once and pushed one result per pair. -/
theorem drained_total (W : World φ μ) (records : List (Record φ)) (sched : List Tid)
    (hcl : (run W records sched).srccha.closed = true)
    (hq : (run W records sched).srccha.queue = [])
    (hpend : ∀ w ∈ (run W records sched).workers, w.pending W = []) :
    ((run W records sched).workers.map (fun w => w.pushed.length)).sum =
        records.length * records.length ∧
      ((run W records sched).workers.flatMap Worker.taken).Perm records := by
  have hC := ctl_run W records sched
  have hD := data_run W records sched
  generalize run W records sched = c at hcl hq hpend hC hD
  have hph := hC.srcClosed hcl
  have hun : c.main.unsent records = [] := by
    cases hm : c.main <;> simp [hm, MainPc.phase] at hph <;> rfl
  have htaken := hD.takenPerm
  rw [hq, hun] at htaken
  simp only [List.append_nil] at htaken
  refine ⟨?_, htaken⟩
  have hpushed : c.workers.flatMap Worker.pushed =
      (c.workers.flatMap Worker.taken).flatMap (rowsFor W records) := by
    rw [List.flatMap_assoc]
    apply List.flatMap_congr
    intro w hw
    have h1 := hD.pushedEq w hw
    simpa [hpend w hw] using h1
  rw [sum_length_eq_length_flatMap Worker.pushed, hpushed, length_flatMap_rowsFor,
    htaken.length_eq]

/-- What a step of worker `j` does to the list of workers: nothing, or it replaces
worker `j`; a worker that has completed its send on `done` pushes and signals no more. -/
theorem calcDistancesStep_workers (W : World φ μ) (records : List (Record φ)) (c : Config φ μ)
    (j : Nat) :
    (calcDistancesStep W records c j).workers = c.workers ∨
      ∃ wj w1, c.workers[j]? = some wj ∧
        (calcDistancesStep W records c j).workers = c.workers.set j w1 ∧
        (wj.past = true → w1.past = true ∧ w1.pushed = wj.pushed ∧ w1.signals = wj.signals) := by
  unfold calcDistancesStep
  split
  · exact Or.inl rfl
  · rename_i w hi
    split
    · rename_i hpc
      split
      · exact Or.inr ⟨w, _, hi, rfl, by simp [Worker.past, hpc]⟩
      · split
        · exact Or.inr ⟨w, _, hi, rfl, by simp [Worker.past, hpc]⟩
        · exact Or.inl rfl
    · rename_i src hpc
      exact Or.inr ⟨w, _, hi, rfl, by simp [Worker.past, hpc]⟩
    · rename_i src dst rest hpc
      split
      · exact Or.inl rfl
      · split
        · exact Or.inr ⟨w, _, hi, rfl, by simp [Worker.past, hpc]⟩
        · exact Or.inl rfl
    · rename_i hpc
      split
      · exact Or.inl rfl
      · split
        · exact Or.inr ⟨w, _, hi, rfl, by simp [Worker.past, hpc]⟩
        · exact Or.inl rfl
    · rename_i hpc
      exact Or.inr ⟨w, _, hi, rfl, by simp [Worker.past]⟩
    · exact Or.inl rfl

theorem step_after_signal (W : World φ μ) (records : List (Record φ)) (c : Config φ μ)
    (t : Tid) (i : Nat) (w : Worker φ μ) (hi : c.workers[i]? = some w)
    (hp : w.past = true) :
    ∃ w1, (step W records c t).workers[i]? = some w1 ∧ w1.past = true ∧
      w1.pushed = w.pushed ∧ w1.signals = w.signals := by
  have hlt : i < c.workers.length := (List.getElem?_eq_some.mp hi).1
  unfold step
  split
  · exact ⟨w, hi, hp, rfl, rfl⟩
  · split
    · exact ⟨w, hi, hp, rfl, rfl⟩
    · split
      · unfold mainStep
        split
        · split
          · refine ⟨w, ?_, hp, rfl, rfl⟩
            simp only
            rw [List.getElem?_append_left hlt]
            exact hi
          · exact ⟨w, hi, hp, rfl, rfl⟩
        · split
          · exact ⟨w, hi, hp, rfl, rfl⟩
          · exact ⟨w, hi, hp, rfl, rfl⟩
        · exact ⟨w, hi, hp, rfl, rfl⟩
        · exact ⟨w, hi, hp, rfl, rfl⟩
        · exact ⟨w, hi, hp, rfl, rfl⟩
        · exact ⟨w, hi, hp, rfl, rfl⟩
        · split
          · exact ⟨w, hi, hp, rfl, rfl⟩
          · exact ⟨w, hi, hp, rfl, rfl⟩
        · exact ⟨w, hi, hp, rfl, rfl⟩
      · unfold collectDistancesStep
        split
        · split <;> exact ⟨w, hi, hp, rfl, rfl⟩
        · split
          · split <;> exact ⟨w, hi, hp, rfl, rfl⟩
          · split
            · split <;> exact ⟨w, hi, hp, rfl, rfl⟩
            · exact ⟨w, hi, hp, rfl, rfl⟩
        · exact ⟨w, hi, hp, rfl, rfl⟩
      · rename_i j
        rcases calcDistancesStep_workers W records c j with h | ⟨wj, w1, hj, hset, hkeep⟩
        · rw [h]
          exact ⟨w, hi, hp, rfl, rfl⟩
        · rw [hset]
          by_cases hji : j = i
          · subst hji
            rw [hi] at hj
            cases hj
            obtain ⟨h1, h2, h3⟩ := hkeep hp
            refine ⟨w1, ?_, h1, h2, h3⟩
            simp [List.getElem?_set, hlt]
          · refine ⟨w, ?_, hp, rfl, rfl⟩
            rw [List.getElem?_set_ne hji]
            exact hi

theorem run_after_signal (W : World φ μ) (records : List (Record φ)) (more : List Tid) :
    ∀ (c : Config φ μ) (i : Nat) (w : Worker φ μ), c.workers[i]? = some w → w.past = true →
      ∃ w1, (more.foldl (step W records) c).workers[i]? = some w1 ∧ w1.past = true ∧
        w1.pushed = w.pushed ∧ w1.signals = w.signals := by
  induction more with
  | nil => intro c i w hi hp; exact ⟨w, hi, hp, rfl, rfl⟩
  | cons t ts ih =>
    intro c i w hi hp
    obtain ⟨w1, h1, h2, h3, h4⟩ := step_after_signal W records c t i w hi hp
    obtain ⟨w2, g1, g2, g3, g4⟩ := ih (step W records c t) i w1 h1 h2
    exact ⟨w2, g1, g2, g3.trans h3, g4.trans h4⟩

theorem parseRows_short (ParseFloat : String → φ) (data : List Row)
    (h : ∃ row ∈ data, row.length < 3) : parseRows ParseFloat data = none := by
  induction data with
  | nil => simp at h
  | cons record rest ih =>
    by_cases hlen : record.length < 3
    · have h2 : record[2]? = none := by
        rw [List.getElem?_eq_none_iff]; omega
      simp [parseRows, h2]
    · have hrest : ∃ row ∈ rest, row.length < 3 := by
        obtain ⟨row, hmem, hrow⟩ := h
        simp only [List.mem_cons] at hmem
        rcases hmem with rfl | hmem
        · exact absurd hrow hlen
        · exact ⟨row, hmem, hrow⟩
      simp only [parseRows, ih hrest]
      split <;> rfl

theorem collectDistances_self_pair (W : World φ μ) (dis : Distance μ) (hself : dis.src = dis.dst)
    (out : List (List Row)) (h : collectDistances W [dis] = some out) :
    out = [[[], [], []]] := by
  simp only [collectDistances, collectLoop, collectIter, flushBuffer, collectFinish,
    SinkState.init, hself, bne_self_eq_false, Bool.false_eq_true, if_false] at h
  split at h
  · split at h
    · rename_i st hst
      split at hst
      · rename_i st1 hst1
        simp only [Nat.zero_mod, beq_self_eq_true, if_true] at hst1
        split at hst1
        · cases hst1
          cases hst
          simp only [gt_iff_lt, Nat.lt_irrefl, if_false] at h
          cases h
          rfl
        · cases hst1
      · cases hst
    · cases h
  · cases h

end More
/-! ## The order invariant: the conduit keeps the order of each worker's pushes -/

section ConduitOrder

variable {φ μ : Type}

theorem order_init (records : List (Record φ)) : Order (Config.init records : Config φ μ) := by
  constructor
  simp [Config.init]

theorem order_mainStep (W : World φ μ) (records : List (Record φ)) (c : Config φ μ)
    (h : Order c) : Order (mainStep W records c) := by
  unfold mainStep
  split
  · split
    · constructor
      intro w hw
      simp only [List.mem_append, List.mem_singleton] at hw
      rcases hw with hw | rfl
      · exact h.pushedSub w hw
      · exact List.nil_sublist _
    · exact ⟨h.pushedSub⟩
  · split
    · exact ⟨h.pushedSub⟩
    · exact h
  · exact ⟨h.pushedSub⟩
  · exact h
  · exact ⟨h.pushedSub⟩
  · exact ⟨h.pushedSub⟩
  · split
    · exact ⟨h.pushedSub⟩
    · exact h
  · exact h

theorem order_collectDistancesStep (W : World φ μ) (c : Config φ μ) (h : Order c) :
    Order (collectDistancesStep W c) := by
  unfold collectDistancesStep
  split
  · split <;> exact ⟨h.pushedSub⟩
  · split
    · rename_i dis rest hq
      split
      · constructor
        intro w hw
        have := h.pushedSub w hw
        simp only [Config.conduit, hq] at this
        simpa [Config.conduit, List.append_assoc] using this
      · exact ⟨h.pushedSub⟩
    · split
      · split <;> exact ⟨h.pushedSub⟩
      · exact h
  · exact h

/-- A worker step keeps the order invariant when what the worker pushes goes to the
tail of `rescha`. -/
theorem order_update_worker (c : Config φ μ) (h : Order c) (i : Nat) (w w1 : Worker φ μ)
    (hi : c.workers[i]? = some w) (extraP : List (Distance μ))
    (hp : w1.pushed = w.pushed ++ extraP) (m : MainPc φ) (srcch : Chan (Record φ))
    (r : Nat) (g : Int) :
    Order { c with
      main := m
      workers := c.workers.set i w1
      srccha := srcch
      rescha := { c.rescha with queue := c.rescha.queue ++ extraP }
      doneReceived := r
      wg := g } := by
  constructor
  apply forall_mem_set
  · intro x hx
    have := h.pushedSub x hx
    simp only [Config.conduit] at this ⊢
    rw [← List.append_assoc]
    exact List.sublist_append_of_sublist_left this
  · have := h.pushedSub w (List.getElem?_mem hi)
    simp only [Config.conduit] at this ⊢
    rw [hp, ← List.append_assoc]
    exact this.append (List.Sublist.refl _)

theorem order_calcDistancesStep (W : World φ μ) (records : List (Record φ)) (c : Config φ μ)
    (i : Nat) (h : Order c) : Order (calcDistancesStep W records c i) := by
  unfold calcDistancesStep
  split
  · exact h
  · rename_i w hi
    split
    · split
      · rename_i src rest hq
        have := order_update_worker c h i w
          { w with pc := .pushing src records, taken := w.taken ++ [src] } hi []
          (by simp) c.main { c.srccha with queue := rest } c.doneReceived c.wg
        simpa using this
      · split
        · have := order_update_worker c h i w { w with pc := .signalling } hi []
            (by simp) c.main c.srccha c.doneReceived c.wg
          simpa using this
        · exact h
    · have := order_update_worker c h i w { w with pc := .ranging } hi []
        (by simp) c.main c.srccha c.doneReceived c.wg
      simpa using this
    · rename_i src dst rest hpc
      split
      · exact ⟨h.pushedSub⟩
      · split
        · have := order_update_worker c h i w
            { w with pc := .pushing src rest, pushed := w.pushed ++ [mkDistance W src dst] } hi
            [mkDistance W src dst] rfl c.main c.srccha c.doneReceived c.wg
          simpa using this
        · exact h
    · split
      · exact ⟨h.pushedSub⟩
      · split
        · rename_i n hm
          have := order_update_worker c h i w
            { w with pc := .deferred, signals := w.signals + 1 } hi []
            (by simp) (if n - 1 = 0 then .closeDone else .await (n - 1)) c.srccha
            (c.doneReceived + 1) c.wg
          simpa using this
        · exact h
    · have := order_update_worker c h i w { w with pc := .returned } hi []
        (by simp) c.main c.srccha c.doneReceived (c.wg - 1)
      simpa using this
    · exact h

theorem order_step (W : World φ μ) (records : List (Record φ)) (c : Config φ μ) (t : Tid)
    (h : Order c) : Order (step W records c t) := by
  unfold step
  split
  · exact h
  · split
    · exact h
    · split
      · exact order_mainStep W records c h
      · exact order_collectDistancesStep W c h
      · exact order_calcDistancesStep W records c _ h

theorem order_run_from (W : World φ μ) (records : List (Record φ)) (sched : List Tid) :
    ∀ c : Config φ μ, Order c → Order (sched.foldl (step W records) c) := by
  induction sched with
  | nil => intro c h; exact h
  | cons t ts ih => intro c h; exact ih _ (order_step W records c t h)

theorem order_run (W : World φ μ) (records : List (Record φ)) (sched : List Tid) :
    Order (run W records sched) :=
  order_run_from W records sched _ (order_init records)

theorem sublist_flatMap_of_mem {α β : Type} (f : α → List β) (x : α) :
    ∀ l : List α, x ∈ l → (f x).Sublist (l.flatMap f) := by
  intro l
  induction l with
  | nil => intro h; simp at h
  | cons y ys ih =>
    intro h
    simp only [List.mem_cons] at h
    simp only [List.flatMap_cons]
    rcases h with rfl | h
    · exact List.sublist_append_left _ _
    · exact List.sublist_append_of_sublist_right (ih h)

/-- Once the work queue is closed and empty and no worker holds an unfinished source
point, the conduit has carried every result of the table once, and the results of each
source point in table order. -/
theorem drained_conduit (W : World φ μ) (records : List (Record φ)) (sched : List Tid)
    (hcl : (run W records sched).srccha.closed = true)
    (hq : (run W records sched).srccha.queue = [])
    (hpend : ∀ w ∈ (run W records sched).workers, w.pending W = []) :
    (run W records sched).conduit.Perm (allPairs W records) ∧
      (run W records sched).conduit.length = records.length * records.length ∧
      ∀ src ∈ records, (rowsFor W records src).Sublist (run W records sched).conduit := by
  have hC := ctl_run W records sched
  have hD := data_run W records sched
  have hO := order_run W records sched
  generalize run W records sched = c at hcl hq hpend hC hD hO
  have hph := hC.srcClosed hcl
  have hun : c.main.unsent records = [] := by
    cases hm : c.main <;> simp [hm, MainPc.phase] at hph <;> rfl
  have htaken := hD.takenPerm
  rw [hq, hun] at htaken
  simp only [List.append_nil] at htaken
  have hw : ∀ w ∈ c.workers, w.pushed = w.taken.flatMap (rowsFor W records) := by
    intro w hw
    have h1 := hD.pushedEq w hw
    simpa [hpend w hw] using h1
  have hpushed : c.workers.flatMap Worker.pushed =
      (c.workers.flatMap Worker.taken).flatMap (rowsFor W records) := by
    rw [List.flatMap_assoc]
    exact List.flatMap_congr hw
  have hperm : c.conduit.Perm (allPairs W records) := by
    have h3 := hD.pushedPerm
    rw [hpushed] at h3
    exact h3.symm.trans (htaken.flatMap_right _)
  refine ⟨hperm, ?_, ?_⟩
  · rw [hperm.length_eq]
    exact length_flatMap_rowsFor W records records
  · intro src hsrc
    have hmem : src ∈ c.workers.flatMap Worker.taken := htaken.mem_iff.mpr hsrc
    obtain ⟨w, hwm, hsw⟩ := List.mem_flatMap.mp hmem
    have h1 := sublist_flatMap_of_mem (rowsFor W records) src w.taken hsw
    rw [← hw w hwm] at h1
    exact h1.trans (hO.pushedSub w hwm)

/-- A worker in its inner loop, scheduled while `rescha` has room and the process has
not been ended by `log.Fatal`, appends the result of its source and the next
destination to `rescha` and moves to the destination after it. -/
theorem push_step (W : World φ μ) (records : List (Record φ)) (sched : List Tid)
    (i : Nat) (w : Worker φ μ) (src dst : Record φ) (rest : List (Record φ))
    (ha : (run W records sched).aborted = false)
    (hi : (run W records sched).workers[i]? = some w)
    (hpc : w.pc = .pushing src (dst :: rest))
    (hroom : (run W records sched).rescha.queue.length < (run W records sched).rescha.cap) :
    (step W records (run W records sched) (.worker i)).rescha.queue =
        (run W records sched).rescha.queue ++ [mkDistance W src dst] ∧
      (step W records (run W records sched) (.worker i)).workers[i]? =
        some { w with pc := .pushing src rest, pushed := w.pushed ++ [mkDistance W src dst] } := by
  have hC := ctl_run W records sched
  generalize run W records sched = c at ha hi hroom hC
  have hmem : w ∈ c.workers := List.getElem?_mem hi
  have hlt : i < c.workers.length := (List.getElem?_eq_some.mp hi).1
  obtain ⟨hrc, -, hph⟩ :=
    ctl_rescha_open_of_not_past W c hC w hmem (by simp [Worker.past, hpc])
  have hne : c.main ≠ .exited := by
    intro hx
    rw [hx] at hph
    simp [MainPc.phase] at hph
  have hstep : step W records c (.worker i) = calcDistancesStep W records c i := by
    unfold step
    simp only [hC.noPanic, ha, Bool.or_self, Bool.false_eq_true, if_false]
  rw [hstep]
  unfold calcDistancesStep
  simp [hi, hpc, hrc, hroom, List.getElem?_set, hlt]

end ConduitOrder
/-! ## Progress: every table has a complete run -/

section Progress

variable {φ μ : Type}

theorem live_init (records : List (Record φ)) :
    Live records (Config.init records : Config φ μ) := by
  constructor <;> simp [Config.init, MainPc.phase]

theorem collectIter_isSome (W : World φ μ) (hw : ∀ l b, W.writeOk l b = true)
    (st : SinkState) (dis : Distance μ) : ∃ st1, collectIter W st dis = some st1 := by
  apply Option.isSome_iff_exists.mp
  unfold collectIter flushBuffer
  simp only [hw, if_true]
  split_ifs <;> rfl

theorem collectFinish_isSome (W : World φ μ) (hw : ∀ l b, W.writeOk l b = true)
    (st : SinkState) : ∃ st1, collectFinish W st = some st1 := by
  unfold collectFinish
  simp only [hw, if_true]
  by_cases h0 : st.count > 0
  · exact ⟨_, if_pos h0⟩
  · exact ⟨_, if_neg h0⟩

theorem live_mainStep (W : World φ μ) (hcpu : 0 < W.NumCPU) (records : List (Record φ))
    (c : Config φ μ) (h : Live records c) : Live records (mainStep W records c) := by
  unfold mainStep
  split
  · rename_i i hm
    have hp : c.main.phase = 0 := by rw [hm]; rfl
    split
    · exact ⟨h.noAbort, h.srcCap, h.resCap, by simp [MainPc.phase], by simp [MainPc.phase],
        by intro n hn; cases hn⟩
    · exact ⟨h.noAbort, h.srcCap, h.resCap, by simp [MainPc.phase], by simp [MainPc.phase],
        by intro n hn; cases hn⟩
  · split
    · exact ⟨h.noAbort, h.srcCap, h.resCap, by simp [MainPc.phase], by simp [MainPc.phase],
        by intro n hn; cases hn⟩
    · exact h
  · refine ⟨h.noAbort, h.srcCap, h.resCap, fun _ => rfl, by simp [MainPc.phase], ?_⟩
    intro n hn
    cases hn
    simp only [numWorkers]
    omega
  · exact h
  · rename_i hm
    have hp : c.main.phase = 3 := by rw [hm]; rfl
    exact ⟨h.noAbort, h.srcCap, h.resCap, fun _ => h.srcClosedAt (by omega),
      by simp [MainPc.phase], by intro n hn; cases hn⟩
  · rename_i hm
    have hp : c.main.phase = 4 := by rw [hm]; rfl
    exact ⟨h.noAbort, h.srcCap, h.resCap, fun _ => h.srcClosedAt (by omega),
      fun _ => rfl, by intro n hn; cases hn⟩
  · rename_i hm
    have hp : c.main.phase = 5 := by rw [hm]; rfl
    split
    · exact ⟨h.noAbort, h.srcCap, h.resCap, fun _ => h.srcClosedAt (by omega),
        fun _ => h.resClosedAt (by omega), by intro n hn; cases hn⟩
    · exact h
  · exact h

theorem live_collectDistancesStep (W : World φ μ) (hc : W.createOk = true)
    (hw : ∀ l b, W.writeOk l b = true) (records : List (Record φ)) (c : Config φ μ)
    (h : Live records c) : Live records (collectDistancesStep W c) := by
  unfold collectDistancesStep
  split
  · simp only [hc, if_true]
    exact ⟨h.noAbort, h.srcCap, h.resCap, h.srcClosedAt, h.resClosedAt, h.awaitPos⟩
  · split
    · rename_i dis rest hq
      obtain ⟨st1, hst⟩ := collectIter_isSome W hw c.sink.st dis
      simp only [hst]
      exact ⟨h.noAbort, h.srcCap, h.resCap, h.srcClosedAt, h.resClosedAt, h.awaitPos⟩
    · split
      · obtain ⟨st1, hst⟩ := collectFinish_isSome W hw c.sink.st
        simp only [hst]
        exact ⟨h.noAbort, h.srcCap, h.resCap, h.srcClosedAt, h.resClosedAt, h.awaitPos⟩
      · exact h
  · exact h

theorem live_calcDistancesStep (W : World φ μ) (records : List (Record φ)) (c : Config φ μ)
    (i : Nat) (h : Live records c) : Live records (calcDistancesStep W records c i) := by
  unfold calcDistancesStep
  split
  · exact h
  · split
    · split
      · exact ⟨h.noAbort, h.srcCap, h.resCap, h.srcClosedAt, h.resClosedAt, h.awaitPos⟩
      · split
        · exact ⟨h.noAbort, h.srcCap, h.resCap, h.srcClosedAt, h.resClosedAt, h.awaitPos⟩
        · exact h
    · exact ⟨h.noAbort, h.srcCap, h.resCap, h.srcClosedAt, h.resClosedAt, h.awaitPos⟩
    · split
      · exact ⟨h.noAbort, h.srcCap, h.resCap, h.srcClosedAt, h.resClosedAt, h.awaitPos⟩
      · split
        · exact ⟨h.noAbort, h.srcCap, h.resCap, h.srcClosedAt, h.resClosedAt, h.awaitPos⟩
        · exact h
    · split
      · exact ⟨h.noAbort, h.srcCap, h.resCap, h.srcClosedAt, h.resClosedAt, h.awaitPos⟩
      · split
        · rename_i n hm
          have hp : c.main.phase = 2 := by rw [hm]; rfl
          have hn := h.awaitPos n hm
          refine ⟨h.noAbort, h.srcCap, h.resCap, fun _ => h.srcClosedAt (by omega), ?_, ?_⟩
          · intro h5
            simp only at h5
            split at h5 <;> simp [MainPc.phase] at h5
          · intro m hm1
            simp only at hm1
            split at hm1
            · cases hm1
            · cases hm1
              omega
        · exact h
    · exact ⟨h.noAbort, h.srcCap, h.resCap, h.srcClosedAt, h.resClosedAt, h.awaitPos⟩
    · exact h

theorem live_step (W : World φ μ) (hcpu : 0 < W.NumCPU) (hc : W.createOk = true)
    (hw : ∀ l b, W.writeOk l b = true) (records : List (Record φ)) (c : Config φ μ)
    (t : Tid) (h : Live records c) : Live records (step W records c t) := by
  unfold step
  split
  · exact h
  · split
    · exact h
    · split
      · exact live_mainStep W hcpu records c h
      · exact live_collectDistancesStep W hc hw records c h
      · exact live_calcDistancesStep W records c _ h

theorem live_run_from (W : World φ μ) (hcpu : 0 < W.NumCPU) (hc : W.createOk = true)
    (hw : ∀ l b, W.writeOk l b = true) (records : List (Record φ)) (sched : List Tid) :
    ∀ c : Config φ μ, Live records c → Live records (sched.foldl (step W records) c) := by
  induction sched with
  | nil => intro c h; exact h
  | cons t ts ih => intro c h; exact ih _ (live_step W hcpu hc hw records c t h)

theorem live_run (W : World φ μ) (hcpu : 0 < W.NumCPU) (hc : W.createOk = true)
    (hw : ∀ l b, W.writeOk l b = true) (records : List (Record φ)) (sched : List Tid) :
    Live records (run W records sched) :=
  live_run_from W hcpu hc hw records sched _ (live_init records)

theorem step_running (W : World φ μ) (records : List (Record φ)) (c : Config φ μ) (t : Tid)
    (hp : c.panicked = false) (ha : c.aborted = false) (hne : c.main ≠ .exited) :
    step W records c t = match t with
      | .main => mainStep W records c
      | .sink => collectDistancesStep W c
      | .worker i => calcDistancesStep W records c i := by
  unfold step
  simp only [hp, ha, Bool.or_self, Bool.false_eq_true, if_false]

theorem sum_map_set {α : Type} (f : α → Nat) (b : α) :
    ∀ (l : List α) (i : Nat) (a : α), l[i]? = some a →
      ((l.set i b).map f).sum + f a = (l.map f).sum + f b := by
  intro l
  induction l with
  | nil => intro i a h; simp at h
  | cons x xs ih =>
    intro i a h
    cases i with
    | zero =>
      simp only [List.getElem?_cons_zero, Option.some.injEq] at h
      subst h
      simp only [List.set_cons_zero, List.map_cons, List.sum_cons]
      omega
    | succ j =>
      simp only [List.getElem?_cons_succ] at h
      have := ih j a h
      simp only [List.set_cons_succ, List.map_cons, List.sum_cons]
      omega

theorem exists_worker_of_countP_lt {α : Type} (p : α → Bool) (l : List α)
    (h : l.countP p < l.length) : ∃ (i : Nat) (a : α), l[i]? = some a ∧ p a = false := by
  have hne : ¬ ∀ a ∈ l, p a = true := by
    intro hall
    have := List.countP_eq_length.mpr hall
    omega
  push_neg at hne
  obtain ⟨a, ha, hpa⟩ := hne
  obtain ⟨i, hi⟩ := List.mem_iff_getElem?.mp ha
  exact ⟨i, a, hi, by simpa using hpa⟩

theorem exists_worker_of_countP_pos {α : Type} (p : α → Bool) (l : List α)
    (h : 0 < l.countP p) : ∃ (i : Nat) (a : α), l[i]? = some a ∧ p a = true := by
  obtain ⟨a, ha, hpa⟩ := List.countP_pos_iff.mp h
  obtain ⟨i, hi⟩ := List.mem_iff_getElem?.mp ha
  exact ⟨i, a, hi, hpa⟩

/-- With the sink idle, a step of `main` out of any position but `await` and `wait`
lowers the measure. -/
theorem progress_main (W : World φ μ) (records : List (Record φ)) (c : Config φ μ)
    (hD : Data W records c) (hL : Live records c)
    (hm : c.main.phase ≠ 2 ∧ c.main.phase ≠ 5 ∧ c.main.phase ≠ 6) :
    (mainStep W records c).potential W records < c.potential W records := by
  unfold mainStep
  split
  · rename_i i hmi
    split
    · rename_i hlt
      have hlt1 : i < numWorkers W := by exact_mod_cast hlt
      simp only [Config.potential, hmi, MainPc.potential, List.map_append, List.sum_append,
        List.map_cons, List.map_nil, List.sum_cons, List.sum_nil, Worker.potential]
      generalize records.length * (1 + pointCost records) = a
      generalize pointCost records * c.srccha.queue.length = b
      omega
    · simp only [Config.potential, hmi, MainPc.potential]
      generalize records.length * (1 + pointCost records) = a
      omega
  · rename_i src rest hmi
    have hlen := hD.takenPerm.length_eq
    rw [hmi] at hlen
    simp only [MainPc.unsent, List.length_append, List.length_cons] at hlen
    have hcap := hL.srcCap
    rw [if_pos (by omega)]
    simp only [Config.potential, hmi, MainPc.potential, List.length_append, List.length_cons,
      List.length_nil, Nat.add_mul, Nat.mul_add, Nat.one_mul, Nat.mul_one]
    generalize rest.length * pointCost records = a
    generalize pointCost records * c.srccha.queue.length = b
    omega
  · rename_i hmi
    simp only [Config.potential, hmi, MainPc.potential, List.length_nil, Nat.zero_mul]
    omega
  · rename_i n hmi
    simp [hmi, MainPc.phase] at hm
  · rename_i hmi
    simp only [Config.potential, hmi, MainPc.potential]
    omega
  · rename_i hmi
    simp only [Config.potential, hmi, MainPc.potential]
    omega
  · rename_i hmi
    simp [hmi, MainPc.phase] at hm
  · rename_i hmi
    simp [hmi, MainPc.phase] at hm

/-- A step of the sink lowers the measure when the sink has its file to create, a
result to receive, or a closed and empty `rescha` to return from. -/
theorem progress_sink (W : World φ μ) (hc : W.createOk = true)
    (hw : ∀ l b, W.writeOk l b = true) (records : List (Record φ)) (c : Config φ μ)
    (h : c.sink.pc = .creating ∨ (c.sink.pc = .looping ∧
      (c.rescha.queue ≠ [] ∨ c.rescha.closed = true))) :
    (collectDistancesStep W c).potential W records < c.potential W records := by
  unfold collectDistancesStep
  split
  · rename_i hpc
    simp only [hc, if_true, Config.potential, Sink.potential, hpc]
    omega
  · rename_i hpc
    split
    · rename_i dis rest hq
      obtain ⟨st1, hst⟩ := collectIter_isSome W hw c.sink.st dis
      simp only [hst, Config.potential, Sink.potential, hpc, hq, List.length_cons]
      omega
    · rename_i hq
      have hcl : c.rescha.closed = true := by
        rcases h with h | ⟨-, h | h⟩
        · simp [hpc] at h
        · exact absurd hq h
        · exact h
      obtain ⟨st1, hst⟩ := collectFinish_isSome W hw c.sink.st
      simp only [hcl, if_true, hst, Config.potential, Sink.potential, hpc]
      omega
  · rename_i hpc
    simp [hpc] at h

/-- With `rescha` open and empty and `main` receiving from `done`, a step of a worker
that has not completed its send on `done` lowers the measure. -/
theorem progress_worker_await (W : World φ μ) (records : List (Record φ)) (c : Config φ μ)
    (hC : Ctl W c) (hL : Live records c) (n : Int) (hm : c.main = .await n)
    (hq : c.rescha.queue = []) (i : Nat) (w : Worker φ μ) (hi : c.workers[i]? = some w)
    (hnp : w.past = false) :
    (calcDistancesStep W records c i).potential W records < c.potential W records := by
  have hmem : w ∈ c.workers := List.getElem?_mem hi
  have hph : c.main.phase = 2 := by rw [hm]; rfl
  obtain ⟨hrc, hdc, -⟩ := ctl_rescha_open_of_not_past W c hC w hmem hnp
  have hsc := hL.srcClosedAt (by omega)
  have hcap := hL.resCap
  unfold calcDistancesStep
  simp only [hi]
  split
  · rename_i hpc
    split
    · rename_i src rest hsq
      have hs := sum_map_set Worker.potential
        { w with pc := .pushing src records, taken := w.taken ++ [src] } c.workers i w hi
      simp only [Worker.potential, hpc] at hs
      simp only [Config.potential, hsq, List.length_cons, Nat.mul_add, Nat.mul_one, pointCost]
        at hs ⊢
      generalize (2 * records.length + 2) * rest.length = a
      omega
    · rename_i hsq
      have hs := sum_map_set Worker.potential { w with pc := .signalling } c.workers i w hi
      simp only [Worker.potential, hpc] at hs
      simp only [hsc, if_true, Config.potential]
      omega
  · rename_i src hpc
    have hs := sum_map_set Worker.potential { w with pc := .ranging } c.workers i w hi
    simp only [Worker.potential, hpc, List.length_nil] at hs
    simp only [Config.potential]
    omega
  · rename_i src dst rest hpc
    have hs := sum_map_set Worker.potential
      { w with pc := .pushing src rest, pushed := w.pushed ++ [mkDistance W src dst] }
      c.workers i w hi
    simp only [Worker.potential, hpc, List.length_cons] at hs
    have hlt : c.rescha.queue.length < c.rescha.cap := by rw [hq, hcap]; simp
    rw [if_neg (by simp [hrc]), if_pos hlt]
    simp only [Config.potential, List.length_append, List.length_cons, List.length_nil]
    omega
  · rename_i hpc
    have hs := sum_map_set Worker.potential
      { w with pc := .deferred, signals := w.signals + 1 } c.workers i w hi
    simp only [Worker.potential, hpc] at hs
    rw [if_neg (by simp [hdc])]
    simp only [hm, Config.potential]
    have hmp : (if n - 1 = 0 then MainPc.closeDone else MainPc.await (n - 1) : MainPc φ).potential
        W records = 3 := by
      split <;> rfl
    rw [hmp]
    simp only [MainPc.potential]
    omega
  · rename_i hpc
    simp [Worker.past, hpc] at hnp
  · rename_i hpc
    simp [Worker.past, hpc] at hnp

/-- A step of a worker that has sent on `done` and not yet returned lowers the measure. -/
theorem progress_worker_deferred (W : World φ μ) (records : List (Record φ)) (c : Config φ μ)
    (i : Nat) (w : Worker φ μ) (hi : c.workers[i]? = some w) (hpc : w.pc = .deferred) :
    (calcDistancesStep W records c i).potential W records < c.potential W records := by
  have hs := sum_map_set Worker.potential { w with pc := .returned } c.workers i w hi
  simp only [Worker.potential, hpc] at hs
  unfold calcDistancesStep
  simp only [hi, hpc, Config.potential]
  omega

/-- In a reachable configuration from which `main` has not returned, some thread has a
step that lowers the measure. -/
theorem progress (W : World φ μ) (hc : W.createOk = true) (hw : ∀ l b, W.writeOk l b = true)
    (records : List (Record φ)) (c : Config φ μ) (hC : Ctl W c) (hD : Data W records c)
    (hG : Wg c) (hL : Live records c) (hne : c.main ≠ .exited) :
    ∃ t, (step W records c t).potential W records < c.potential W records := by
  have hrun := fun t => step_running W records c t hC.noPanic hL.noAbort hne
  by_cases hsink : c.sink.pc = .creating ∨ (c.sink.pc = .looping ∧ c.rescha.queue ≠ [])
  · refine ⟨.sink, ?_⟩
    rw [hrun]
    apply progress_sink W hc hw records c
    rcases hsink with h | ⟨h1, h2⟩
    · exact Or.inl h
    · exact Or.inr ⟨h1, Or.inl h2⟩
  · have hq : c.rescha.queue = [] := by
      cases hpc : c.sink.pc with
      | creating => exact absurd (Or.inl hpc) hsink
      | looping =>
        by_contra hx
        exact hsink (Or.inr ⟨hpc, hx⟩)
      | returned => exact (hD.sinkDone hpc).1
    cases hm : c.main with
    | spawn i =>
      refine ⟨.main, ?_⟩
      rw [hrun]
      exact progress_main W records c hD hL (by simp [hm, MainPc.phase])
    | fill todo =>
      refine ⟨.main, ?_⟩
      rw [hrun]
      exact progress_main W records c hD hL (by simp [hm, MainPc.phase])
    | closeDone =>
      refine ⟨.main, ?_⟩
      rw [hrun]
      exact progress_main W records c hD hL (by simp [hm, MainPc.phase])
    | closeRes =>
      refine ⟨.main, ?_⟩
      rw [hrun]
      exact progress_main W records c hD hL (by simp [hm, MainPc.phase])
    | exited => exact absurd hm hne
    | await n =>
      have hn := hL.awaitPos n hm
      have hcount := hC.awaitN n hm
      have hlen := hC.len
      rw [hm] at hlen
      simp only [MainPc.started] at hlen
      obtain ⟨i, w, hi, hnp⟩ := exists_worker_of_countP_lt Worker.past c.workers (by omega)
      refine ⟨.worker i, ?_⟩
      rw [hrun]
      exact progress_worker_await W records c hC hL n hm hq i w hi hnp
    | wait =>
      have hph : c.main.phase = 5 := by rw [hm]; rfl
      by_cases h0 : c.wg = 0
      · refine ⟨.main, ?_⟩
        rw [hrun]
        simp only [mainStep, hm, h0, if_true, Config.potential, MainPc.potential]
        omega
      · by_cases hlive : 0 < c.workers.countP Worker.live
        · obtain ⟨i, w, hi, hl⟩ := exists_worker_of_countP_pos Worker.live c.workers hlive
          have hpast := hC.allPast (by omega) w (List.getElem?_mem hi)
          have hpc : w.pc = .deferred := by
            unfold Worker.past at hpast
            unfold Worker.live at hl
            split at hpast <;> simp_all
          refine ⟨.worker i, ?_⟩
          rw [hrun]
          exact progress_worker_deferred W records c i w hi hpc
        · have hwg := hG.wgEq
          have hz : c.workers.countP Worker.live = 0 := by omega
          have hloop : c.sink.pc = .looping := by
            cases hpc : c.sink.pc with
            | creating => exact absurd (Or.inl hpc) hsink
            | looping => rfl
            | returned =>
              rw [hpc, hz] at hwg
              simp at hwg
              exact absurd hwg h0
          refine ⟨.sink, ?_⟩
          rw [hrun]
          exact progress_sink W hc hw records c
            (Or.inr ⟨hloop, Or.inr (hL.resClosedAt (by omega))⟩)

/-- From a configuration that satisfies the invariants, some schedule brings `main` to
its return. -/
theorem completes_from (W : World φ μ) (hcpu : 0 < W.NumCPU) (hc : W.createOk = true)
    (hw : ∀ l b, W.writeOk l b = true) (records : List (Record φ)) :
    ∀ (n : Nat) (c : Config φ μ), c.potential W records ≤ n → Ctl W c → Data W records c →
      Wg c → Live records c →
      ∃ sched : List Tid, (sched.foldl (step W records) c).main = .exited := by
  intro n
  induction n with
  | zero =>
    intro c hle hC hD hG hL
    by_cases hne : c.main = .exited
    · exact ⟨[], hne⟩
    · obtain ⟨t, ht⟩ := progress W hc hw records c hC hD hG hL hne
      omega
  | succ k ih =>
    intro c hle hC hD hG hL
    by_cases hne : c.main = .exited
    · exact ⟨[], hne⟩
    · obtain ⟨t, ht⟩ := progress W hc hw records c hC hD hG hL hne
      obtain ⟨sched, hs⟩ := ih (step W records c t) (by omega) (ctl_step W records c t hC)
        (data_step W records c t hD) (wg_step W records c t hG)
        (live_step W hcpu hc hw records c t hL)
      exact ⟨t :: sched, hs⟩

/-- When the file operations succeed and there is at least one CPU, every table has a
complete run. -/
theorem pipeline_completes (W : World φ μ) (hcpu : 0 < W.NumCPU) (hc : W.createOk = true)
    (hw : ∀ l b, W.writeOk l b = true) (records : List (Record φ)) :
    ∃ sched out, pipeline W records sched = some out := by
  obtain ⟨sched, hs⟩ := completes_from W hcpu hc hw records _ (Config.init records) (le_refl _)
    (ctl_init W records) (data_init W records) (wg_init records) (live_init records)
  refine ⟨sched, (run W records sched).sink.st.written, ?_⟩
  have hrun : run W records sched = sched.foldl (step W records) (Config.init records) := rfl
  unfold pipeline
  rw [hrun]
  simp only [hs]

end Progress
/-! ## The claims -/

section Claims

variable {φ μ : Type}

/-- C1, a defect of the code: the claim puts the number of rows handed to the writer
at `N*N - N`, zero for a single-point table.  For every single-point table every
complete run hands the writer one batch, the three nil rows of `make([][]string, 3)`,
and a complete run exists when the file operations succeed and there is a CPU; the run
of `demoWorld` on `[pointA]` under `schedOne` is complete and writes three rows. -/
theorem single_point_writes_nil_rows :
    (∀ (W : World Nat Nat) (a : Record Nat) (sched : List Tid) (out : List (List Row)),
        pipeline W [a] sched = some out → out = [[[], [], []]]) ∧
      (∀ (W : World Nat Nat) (a : Record Nat), 0 < W.NumCPU → W.createOk = true →
        (∀ l b, W.writeOk l b = true) → ∃ sched out, pipeline W [a] sched = some out) ∧
      pipeline demoWorld [pointA] schedOne = some [[[], [], []]] ∧
      totalRows [[[], [], []]] = 3 ∧ [pointA].length * [pointA].length - [pointA].length = 0 := by
  refine ⟨?_, fun W a hcpu hc hw => pipeline_completes W hcpu hc hw [a], by decide, by decide,
    by decide⟩
  intro W a sched out h
  obtain ⟨stream, hp, hc⟩ := pipeline_stream W [a] sched out h
  have hs : stream = [mkDistance W a a] := by
    have : allPairs W [a] = [mkDistance W a a] := by
      simp [allPairs, calcDistances, rowsFor]
    rw [this] at hp
    exact List.perm_singleton.mp hp
  rw [hs] at hc
  exact collectDistances_self_pair W (mkDistance W a a) rfl out hc

/-- C2, a defect of the code: the claim puts the number of `WriteAll` calls at
`(N*N - N) / 2000`, plus one when the division leaves a remainder, each call but the
last carrying 2000 result rows.  On the two-point table `[pointA, pointB]` the claim
gives one call.  When the results arrive as (A,A), (A,B), (B,A), (B,B) the sink makes
two calls, the first with no result row; when they arrive as (B,A), (A,A), (A,B), (B,B)
it makes one. -/
theorem two_point_flush_count :
    pipeline demoWorld [pointA, pointB] schedTwoSeq =
        some [[[], [], []], [[], [], [], ["A", "B", "69.093"], ["B", "A", "69.093"]]] ∧
      pipeline demoWorld [pointA, pointB] schedTwoMixed =
        some [[[], [], [], ["B", "A", "69.093"], ["A", "B", "69.093"]]] ∧
      (2 * 2 - 2) % 2000 ≠ 0 ∧ (2 * 2 - 2) / 2000 + 1 = 1 := by
  refine ⟨by decide, by decide, by decide, by decide⟩

/-- C3: for every stream of results, the three-field rows in the concatenation of the
batches `collectDistances` writes are the rows formatted from the results with
`src != dst`, each once and in arrival order, the last partial batch included; and
when the file operations succeed `collectDistances` does return such batches. -/
theorem collectDistances_keeps_arrival_order (W : World φ μ) (reschan : List (Distance μ)) :
    (∀ out, collectDistances W reschan = some out →
        resultRows out = (reschan.filter (fun dis => dis.src != dis.dst)).map
          (fun dis => [dis.src, dis.dst, W.FormatFloat dis.miles 'f' precision 32])) ∧
      (W.createOk = true → (∀ l b, W.writeOk l b = true) →
        ∃ out, collectDistances W reschan = some out) := by
  refine ⟨?_, ?_⟩
  · intro out h
    exact collectDistances_rows W reschan out h
  · intro hc hw
    exact Option.isSome_iff_exists.mp (collectDistances_isSome W hc hw reschan)

/-- A run of C3 on the stream (A,A), (A,B), (B,A), (B,B). -/
theorem collectDistances_keeps_arrival_order_witness :
    resultRows [[[], [], []], [[], [], [], ["A", "B", "69.093"], ["B", "A", "69.093"]]] =
        ((allPairs demoWorld [pointA, pointB]).filter (fun dis => dis.src != dis.dst)).map
          (fun dis => [dis.src, dis.dst, demoWorld.FormatFloat dis.miles 'f' precision 32]) ∧
      ∃ out, collectDistances demoWorld (allPairs demoWorld [pointA, pointB]) = some out :=
  ⟨(collectDistances_keeps_arrival_order demoWorld (allPairs demoWorld [pointA, pointB])).1 _
      (by decide),
    (collectDistances_keeps_arrival_order demoWorld (allPairs demoWorld [pointA, pointB])).2 rfl
      (fun _ _ => rfl)⟩

/-- C4: in the output of every complete run, on every table and under every schedule,
no row that has a first and a second field has them equal: no row for a pair of equal
labels is written. -/
theorem no_self_pair_written (W : World φ μ) (records : List (Record φ)) (sched : List Tid)
    (out : List (List Row)) (h : pipeline W records sched = some out) :
    ∀ batch ∈ out, ∀ row ∈ batch, ∀ s d : String,
      row[0]? = some s → row[1]? = some d → s ≠ d := by
  obtain ⟨stream, -, hc⟩ := pipeline_stream W records sched out h
  refine collectDistances_all W
    (fun row => ∀ s d : String, row[0]? = some s → row[1]? = some d → s ≠ d) ?_ ?_ stream out hc
  · intro s d h0
    simp at h0
  · intro dis hne s d h0 h1
    simp only [formatRow, List.getElem?_cons_zero, List.getElem?_cons_succ,
      Option.some.injEq] at h0 h1
    rw [← h0, ← h1]
    exact hne

/-- A complete run for C4, on the two-point table: the row `("A", "B", _)` of its second
batch. -/
theorem no_self_pair_written_witness :
    pipeline demoWorld [pointA, pointB] schedTwoSeq =
        some [[[], [], []], [[], [], [], ["A", "B", "69.093"], ["B", "A", "69.093"]]] ∧
      "A" ≠ "B" :=
  ⟨by decide,
    no_self_pair_written demoWorld [pointA, pointB] schedTwoSeq
      [[[], [], []], [[], [], [], ["A", "B", "69.093"], ["B", "A", "69.093"]]] (by decide)
      [[], [], [], ["A", "B", "69.093"], ["B", "A", "69.093"]] (by decide)
      ["A", "B", "69.093"] (by decide) "A" "B" rfl rfl⟩

/-- C5: with a pair distance that is symmetric in its two coordinates, whenever the
output of a complete run, on any table, contains a row `(A, B, d)` it contains the row
`(B, A, d)`; and on a two-point table `[a, b]` with distinct labels the result rows of
every complete run are the two rows `(a, b, d)` and `(b, a, d)` with `d` the formatted
distance of `a` and `b`, in some order, with no row `(a, a, _)` or `(b, b, _)`, and a
complete run exists when the file operations succeed and there is a CPU. -/
theorem output_symmetric (W : World φ μ)
    (hsym : ∀ a b, (W.haversineDistance a b).1 = (W.haversineDistance b a).1) :
    (∀ (records : List (Record φ)) (sched : List Tid) (out : List (List Row)),
        pipeline W records sched = some out →
        ∀ A B d : String, [A, B, d] ∈ out.flatten → [B, A, d] ∈ out.flatten) ∧
      (∀ a b : Record φ, a.Zip ≠ b.Zip →
        (∀ (sched : List Tid) (out : List (List Row)), pipeline W [a, b] sched = some out →
          (resultRows out).Perm
            [[a.Zip, b.Zip,
                W.FormatFloat (W.haversineDistance a.Cor b.Cor).1 'f' precision 32],
              [b.Zip, a.Zip,
                W.FormatFloat (W.haversineDistance a.Cor b.Cor).1 'f' precision 32]] ∧
          ∀ m : String, [a.Zip, a.Zip, m] ∉ out.flatten ∧ [b.Zip, b.Zip, m] ∉ out.flatten) ∧
        (0 < W.NumCPU → W.createOk = true → (∀ l b, W.writeOk l b = true) →
          ∃ sched out, pipeline W [a, b] sched = some out)) := by
  refine ⟨?_, ?_⟩
  · intro records sched out h A B d hrow
    exact pipeline_symmetric W records sched out hsym h A B d hrow
  · intro a b hne
    refine ⟨?_, fun hcpu hc hw => pipeline_completes W hcpu hc hw [a, b]⟩
    intro sched out h
    refine ⟨pipeline_two_points W a b sched out hsym hne h, ?_⟩
    obtain ⟨stream, -, hc⟩ := pipeline_stream W [a, b] sched out h
    have hall := collectDistances_all W
      (fun row => ∀ s d : String, row[0]? = some s → row[1]? = some d → s ≠ d)
      (by intro s d h0; simp at h0)
      (by
        intro dis hd s d h0 h1
        simp only [formatRow, List.getElem?_cons_zero, List.getElem?_cons_succ,
          Option.some.injEq] at h0 h1
        rw [← h0, ← h1]
        exact hd) stream out hc
    intro m
    constructor
    · intro hmem
      obtain ⟨batch, hb, hr⟩ := List.mem_flatten.mp hmem
      exact hall batch hb _ hr a.Zip a.Zip rfl rfl rfl
    · intro hmem
      obtain ⟨batch, hb, hr⟩ := List.mem_flatten.mp hmem
      exact hall batch hb _ hr b.Zip b.Zip rfl rfl rfl

/-- A complete run for C5: the table `[pointA, pointB]` with the taxicab distance. -/
theorem output_symmetric_witness :
    (["B", "A", "69.093"] ∈
        [[[], [], []], [[], [], [], ["A", "B", "69.093"], ["B", "A", "69.093"]]].flatten) ∧
      (resultRows [[[], [], []], [[], [], [], ["A", "B", "69.093"], ["B", "A", "69.093"]]]).Perm
        [["A", "B", "69.093"], ["B", "A", "69.093"]] :=
  ⟨(output_symmetric demoWorld (fun a b => by simp [demoWorld]; omega)).1
      [pointA, pointB] schedTwoSeq
      [[[], [], []], [[], [], [], ["A", "B", "69.093"], ["B", "A", "69.093"]]] (by decide)
      "A" "B" "69.093" (by decide),
    (((output_symmetric demoWorld (fun a b => by simp [demoWorld]; omega)).2
      pointA pointB (by decide)).1 schedTwoSeq
      [[[], [], []], [[], [], [], ["A", "B", "69.093"], ["B", "A", "69.093"]]] (by decide)).1⟩

/-- C6: two complete runs on the same table, whatever their schedules, write the same
result rows up to order; in particular the same set of rows. -/
theorem output_independent_of_schedule (W : World φ μ) (records : List (Record φ))
    (sched1 sched2 : List Tid) (out1 out2 : List (List Row))
    (h1 : pipeline W records sched1 = some out1) (h2 : pipeline W records sched2 = some out2) :
    (resultRows out1).Perm (resultRows out2) ∧
      ∀ row, row ∈ resultRows out1 ↔ row ∈ resultRows out2 := by
  have h := (pipeline_rows W records sched1 out1 h1).trans
    (pipeline_rows W records sched2 out2 h2).symm
  exact ⟨h, fun row => h.mem_iff⟩

/-- Two complete runs for C6 that differ in which worker takes which point and in the
arrival order. -/
theorem output_independent_of_schedule_witness :
    (resultRows [[[], [], []], [[], [], [], ["A", "B", "69.093"], ["B", "A", "69.093"]]]).Perm
      (resultRows [[[], [], [], ["B", "A", "69.093"], ["A", "B", "69.093"]]]) :=
  (output_independent_of_schedule demoWorld [pointA, pointB] schedTwoSeq schedTwoMixed _ _
    (by decide) (by decide)).1

/-- C7: in every reachable configuration every worker has pushed, for the source points
it has taken and in the order it took them, one result per point of the table in table
order, with the source's label, the destination's label and their pair distance (the
results still due for the point it holds excepted); these pushes are exactly what
`rescha` has carried, each worker's in the order pushed; a worker in its inner loop,
scheduled while `rescha` has room, appends the result of its source and the next
destination to `rescha`; once the work queue is closed and empty and no worker holds an
unfinished point, the workers have together taken every table point once and `rescha`
has carried `N * N` results, one per ordered pair of points, those of each source point
in table order, whatever the number of workers; and such a configuration is reached
when the file operations succeed and there is a CPU. -/
theorem workers_push_one_result_per_pair (W : World φ μ) (records : List (Record φ)) :
    (∀ sched : List Tid,
      (∀ w ∈ (run W records sched).workers,
          w.pushed ++ w.pending W = w.taken.flatMap (fun src => records.map (fun dst =>
            ({ src := src.Zip, dst := dst.Zip,
               miles := (W.haversineDistance src.Cor dst.Cor).1 } : Distance μ)))) ∧
        ((run W records sched).workers.flatMap Worker.pushed).Perm
          ((run W records sched).sink.received ++ (run W records sched).rescha.queue) ∧
        (∀ w ∈ (run W records sched).workers, w.pushed.Sublist
          ((run W records sched).sink.received ++ (run W records sched).rescha.queue)) ∧
        (∀ (i : Nat) (w : Worker φ μ) (src dst : Record φ) (rest : List (Record φ)),
          (run W records sched).aborted = false →
          (run W records sched).workers[i]? = some w → w.pc = .pushing src (dst :: rest) →
          (run W records sched).rescha.queue.length < (run W records sched).rescha.cap →
          (step W records (run W records sched) (.worker i)).rescha.queue =
              (run W records sched).rescha.queue ++
                [{ src := src.Zip, dst := dst.Zip,
                   miles := (W.haversineDistance src.Cor dst.Cor).1 }] ∧
            (step W records (run W records sched) (.worker i)).workers[i]? =
              some { w with
                pc := .pushing src rest
                pushed := w.pushed ++
                  [{ src := src.Zip, dst := dst.Zip,
                     miles := (W.haversineDistance src.Cor dst.Cor).1 }] }) ∧
        ((run W records sched).srccha.closed = true →
          (run W records sched).srccha.queue = [] →
          (∀ w ∈ (run W records sched).workers, w.pending W = []) →
          ((run W records sched).workers.map (fun w => w.pushed.length)).sum =
              records.length * records.length ∧
            ((run W records sched).workers.flatMap Worker.taken).Perm records ∧
            ((run W records sched).sink.received ++ (run W records sched).rescha.queue).Perm
              (records.flatMap (fun src => records.map (fun dst =>
                ({ src := src.Zip, dst := dst.Zip,
                   miles := (W.haversineDistance src.Cor dst.Cor).1 } : Distance μ)))) ∧
            ((run W records sched).sink.received ++
              (run W records sched).rescha.queue).length = records.length * records.length ∧
            ∀ src ∈ records, (records.map (fun dst =>
                ({ src := src.Zip, dst := dst.Zip,
                   miles := (W.haversineDistance src.Cor dst.Cor).1 } : Distance μ))).Sublist
              ((run W records sched).sink.received ++ (run W records sched).rescha.queue))) ∧
      (0 < W.NumCPU → W.createOk = true → (∀ l b, W.writeOk l b = true) →
        ∃ sched : List Tid, (run W records sched).srccha.closed = true ∧
          (run W records sched).srccha.queue = [] ∧
          ∀ w ∈ (run W records sched).workers, w.pending W = []) := by
  refine ⟨?_, ?_⟩
  · intro sched
    refine ⟨?_, (data_run W records sched).pushedPerm, (order_run W records sched).pushedSub,
      ?_, ?_⟩
    · intro w hw
      exact (data_run W records sched).pushedEq w hw
    · intro i w src dst rest ha hi hpc hroom
      exact push_step W records sched i w src dst rest ha hi hpc hroom
    · intro hcl hq hpend
      obtain ⟨h1, h2⟩ := drained_total W records sched hcl hq hpend
      obtain ⟨h3, h4, h5⟩ := drained_conduit W records sched hcl hq hpend
      exact ⟨h1, h2, h3, h4, h5⟩
  · intro hcpu hc hw
    obtain ⟨sched, out, h⟩ := pipeline_completes W hcpu hc hw records
    refine ⟨sched, ?_⟩
    have hC := ctl_run W records sched
    have hL := live_run W hcpu hc hw records sched
    have hm : (run W records sched).main.phase = 6 := by
      unfold pipeline at h
      split at h
      · rename_i hx
        rw [hx]; rfl
      · cases h
    refine ⟨hL.srcClosedAt (by omega), hC.srcEmpty (by omega), ?_⟩
    intro w hw1
    have hp := hC.allPast (by omega) w hw1
    unfold Worker.past at hp
    unfold Worker.pending
    split at hp <;> simp_all

/-- Two configurations for C7 on the table `[pointA, pointB]`: worker 0 before its first
push, whose step puts (A,A) on `rescha`; and the end of the run in which worker 0 takes
both points, where `rescha` has carried (A,A), (A,B), (B,A), (B,B). -/
theorem workers_push_one_result_per_pair_witness :
    (step demoWorld [pointA, pointB] (run demoWorld [pointA, pointB] schedTwoTaken)
        (.worker 0)).rescha.queue =
      (run demoWorld [pointA, pointB] schedTwoTaken).rescha.queue ++
        [{ src := "A", dst := "A", miles := 0 }] ∧
      (run demoWorld [pointA, pointB] schedTwoSeq).sink.received =
        [{ src := "A", dst := "A", miles := 0 }, { src := "A", dst := "B", miles := 1 },
          { src := "B", dst := "A", miles := 1 }, { src := "B", dst := "B", miles := 0 }] ∧
      ((run demoWorld [pointA, pointB] schedTwoSeq).sink.received ++
        (run demoWorld [pointA, pointB] schedTwoSeq).rescha.queue).length =
          [pointA, pointB].length * [pointA, pointB].length :=
  ⟨(((workers_push_one_result_per_pair demoWorld [pointA, pointB]).1 schedTwoTaken).2.2.2.1 0
      { pc := .pushing pointA [pointA, pointB], taken := [pointA], pushed := [], signals := 0 }
      pointA pointA [pointB] (by decide) (by decide) rfl (by decide)).1,
    by decide,
    (((workers_push_one_result_per_pair demoWorld [pointA, pointB]).1 schedTwoSeq).2.2.2.2
      (by decide) (by decide) (by decide)).2.2.2.1⟩

/-- C8: in every reachable configuration no goroutine has sent on a closed channel;
when `rescha` is closed, `main` has received exactly `numWorkers` values from `done`,
all `numWorkers` workers exist and each has completed its one send on `done`; a worker
has sent on `done` once when it is past that send and not at all before; and a worker
that has sent on `done` pushes nothing afterwards, under any continuation of the
schedule. -/
theorem rescha_closed_only_after_all_signals (W : World φ μ) (records : List (Record φ))
    (sched : List Tid) :
    (run W records sched).panicked = false ∧
      ((run W records sched).rescha.closed = true →
        (run W records sched).doneReceived = numWorkers W ∧
        (run W records sched).workers.length = numWorkers W ∧
        ∀ w ∈ (run W records sched).workers, w.signals = 1 ∧ w.past = true) ∧
      (∀ w ∈ (run W records sched).workers, w.signals = if w.past then 1 else 0) ∧
      (∀ (more : List Tid) (i : Nat) (w w1 : Worker φ μ),
        (run W records sched).workers[i]? = some w → w.signals = 1 →
        (run W records (sched ++ more)).workers[i]? = some w1 →
        w1.pushed = w.pushed ∧ w1.signals = 1) := by
  have hC := ctl_run W records sched
  refine ⟨hC.noPanic, ?_, hC.sig, ?_⟩
  · intro hcl
    have hph := hC.resCl hcl
    have hpast := hC.allPast (by omega)
    have hlen := hC.len
    have hst : (run W records sched).main.started W = numWorkers W := by
      cases hm : (run W records sched).main <;> simp [hm, MainPc.phase] at hph <;> rfl
    rw [hst] at hlen
    refine ⟨?_, hlen, ?_⟩
    · rw [hC.recvd, List.countP_eq_length.mpr hpast, hlen]
    · intro w hw
      have := hC.sig w hw
      rw [hpast w hw] at this
      exact ⟨by simpa using this, hpast w hw⟩
  · intro more i w w1 hi hsig hi1
    have hp : w.past = true := by
      have := hC.sig w (List.getElem?_mem hi)
      by_contra hnp
      simp [hnp] at this
      omega
    obtain ⟨w2, h1, -, h3, h4⟩ := run_after_signal W records more _ i w hi hp
    have hrun : run W records (sched ++ more) =
        more.foldl (step W records) (run W records sched) := by
      simp [run, List.foldl_append]
    rw [hrun, h1] at hi1
    cases hi1
    exact ⟨h3, by rw [h4, hsig]⟩

/-- A run for C8 that reaches the close of `rescha`: the complete run on `[pointA]`. -/
theorem rescha_closed_only_after_all_signals_witness :
    (run demoWorld [pointA] schedOne).doneReceived = numWorkers demoWorld ∧
      (run demoWorld [pointA] schedOne).workers.length = numWorkers demoWorld ∧
      ∀ w ∈ (run demoWorld [pointA] schedOne).workers, w.signals = 1 ∧ w.past = true :=
  (rescha_closed_only_after_all_signals demoWorld [pointA] schedOne).2.1 (by decide)

/-- C9, the claim as written fails: on the parsed table `twoColumnTable`, whose data row
has two fields, `csv2records` reaches no `log.Fatal(err)`; it stops in a run-time
panic. -/
theorem csv2records_short_row_panics :
    (∃ row ∈ twoColumnTable.tail, row.length < 3) ∧
      csv2records (fun _ => (Except.ok () : Except String Unit))
        (fun _ => Except.ok twoColumnTable) (fun _ => (0 : Nat)) "zipcodes.csv" =
          Loaded.runtimePanic ∧
      ¬ ∃ err, csv2records (fun _ => (Except.ok () : Except String Unit))
        (fun _ => Except.ok twoColumnTable) (fun _ => (0 : Nat)) "zipcodes.csv" =
          Loaded.fatal err := by
  refine ⟨by decide, by decide, ?_⟩
  rintro ⟨err, h⟩
  have h2 : csv2records (fun _ => (Except.ok () : Except String Unit))
      (fun _ => Except.ok twoColumnTable) (fun _ => (0 : Nat)) "zipcodes.csv" =
        Loaded.runtimePanic := by decide
  rw [h2] at h
  cases h

/-- C9, amended: when the csv reader has returned a header followed by data rows of
which one has fewer than three fields, `csv2records` returns no point table: the call
stops in a run-time panic. -/
theorem csv2records_short_row_no_table {ε β : Type} (ReadFile : String → Except ε β)
    (ReadAll : β → Except ε (List Row)) (ParseFloat : String → φ) (path : String)
    (inp : β) (header : Row) (data : List Row)
    (hfile : ReadFile path = .ok inp) (hall : ReadAll inp = .ok (header :: data))
    (hshort : ∃ row ∈ data, row.length < 3) :
    csv2records ReadFile ReadAll ParseFloat path = Loaded.runtimePanic ∧
      ∀ records, csv2records ReadFile ReadAll ParseFloat path ≠ Loaded.table records := by
  have h : csv2records ReadFile ReadAll ParseFloat path = Loaded.runtimePanic := by
    simp only [csv2records, hfile, hall, parseRows_short ParseFloat data hshort]
  refine ⟨h, ?_⟩
  intro records hx
  rw [h] at hx
  cases hx

/-- The amended C9 on `twoColumnTable`. -/
theorem csv2records_short_row_no_table_witness :
    csv2records (fun _ => (Except.ok () : Except String Unit))
        (fun _ => Except.ok twoColumnTable) (fun _ => (0 : Nat)) "zipcodes.csv" =
          Loaded.runtimePanic ∧
      ∀ records, csv2records (fun _ => (Except.ok () : Except String Unit))
        (fun _ => Except.ok twoColumnTable) (fun _ => (0 : Nat)) "zipcodes.csv" ≠
          Loaded.table records :=
  csv2records_short_row_no_table (fun _ => (Except.ok () : Except String Unit))
    (fun _ => Except.ok twoColumnTable) (fun _ => (0 : Nat)) "zipcodes.csv" ()
    ["zip", "lat"] [["10001", "40.7"]] rfl rfl (by decide)

/-- C10: the sink filters on equality of labels.  In the output of every complete run
on a table of `N` points, labels distinct or not, the number of three-field rows is
`N * N` minus the sum over the labels `l` of `c_l * c_l`, with `c_l` the number of
points labelled `l`; it is `N * N - N` exactly when the labels are pairwise distinct;
and a complete run exists when the file operations succeed and there is a CPU. -/
theorem result_row_count_by_label (W : World φ μ) (records : List (Record φ)) :
    (∀ (sched : List Tid) (out : List (List Row)), pipeline W records sched = some out →
      (resultRows out).length = records.length * records.length - sameLabelPairs records ∧
        sameLabelPairs records ≤ records.length * records.length ∧
        ((resultRows out).length = records.length * records.length - records.length ↔
          (labels records).Nodup)) ∧
      (0 < W.NumCPU → W.createOk = true → (∀ l b, W.writeOk l b = true) →
        ∃ sched out, pipeline W records sched = some out) := by
  refine ⟨?_, fun hcpu hc hw => pipeline_completes W hcpu hc hw records⟩
  intro sched out h
  have h1 := pipeline_count W records sched out h
  obtain ⟨h2, h3⟩ := length_le_sameLabelPairs records
  have h4 : records.length ≤ records.length * records.length := by
    cases records with
    | nil => simp
    | cons x xs => exact Nat.le_mul_of_pos_left _ (by simp)
  refine ⟨by omega, by omega, ?_⟩
  rw [← h3]
  omega

/-- A complete run for C10: the two-point table with distinct labels. -/
theorem result_row_count_by_label_witness :
    (resultRows [[[], [], [], ["B", "A", "69.093"], ["A", "B", "69.093"]]]).length =
      [pointA, pointB].length * [pointA, pointB].length - sameLabelPairs [pointA, pointB] :=
  ((result_row_count_by_label demoWorld [pointA, pointB]).1 schedTwoMixed
    [[[], [], [], ["B", "A", "69.093"], ["A", "B", "69.093"]]] (by decide)).1

end Claims
end Main
